import Mathlib

/-!
# Verification of the positional-inverted-index search engine

Shallow embedding of the core of the `Information-Retrieval-PII` repository
(files `models.py`, `score_weight.py`, `utils.py`, `optimizer.py`,
`loader.py`, `search.py`).

Modelling conventions:
* Python floats are modelled by real numbers (`ℝ`); `math.log2` is
  `Real.logb 2` and `math.sqrt` is `Real.sqrt`.
* Python dicts (which preserve insertion order) are modelled by association
  lists; updating an existing key keeps its place, a new key is appended.
* `datetime` values are modelled by their POSIX timestamps (`ℝ`); the
  external parser `datetime.strptime` is treated as already applied, so a
  document carries its parsed timestamp.  `datetime.min` / `datetime.max`
  are the timestamps of 0001-01-01T00:00:00 and 9999-12-31T23:59:59.
* Exceptions are modelled with `Except`: `binary_search_tuple` can raise
  `KeyError` (key not found) or — on an empty list — `IndexError` from the
  final `a[low]` access; callers that catch only `KeyError` propagate
  `IndexError`, exactly as the Python `try/except KeyError` blocks do.
* The external tokenizer (`tokenizer.py`, out of scope per the spec) is
  treated as already applied: a source document carries the token lists the
  tokenizer would produce.
* Python's `sorted` (a stable comparison sort) is modelled by
  `List.insertionSort`, which is also stable.
-/

namespace IRPII

noncomputable section

/-! ## `utils.py` : the shared sorted-lookup primitive -/

/-- The two exceptions a `binary_search_tuple` call can raise:
`keyError` models Python's `KeyError`, `indexError` models the
`IndexError` raised by the out-of-range access `a[low]`. -/
inductive LookupError where
  | keyError : LookupError
  | indexError : LookupError
deriving DecidableEq

/-- The `while low < high` loop of `binary_search_tuple`, returning the
final value of `low`.  `keys.getD mid x` models `a[mid][0]`; inside the
loop `mid` is always in range, so the default is never consulted. -/
def bstLoop {K : Type} [LinearOrder K] (keys : List K) (x : K)
    (low high : ℕ) : ℕ :=
  if low < high then
    let mid := (low + high) / 2
    if keys.getD mid x < x then bstLoop keys x (mid + 1) high
    else bstLoop keys x low mid
  else low
termination_by high - low
decreasing_by
  · have hmid : (low + high) / 2 < high := by omega
    omega
  · have hmid : low ≤ (low + high) / 2 := by omega
    have hmid2 : (low + high) / 2 < high := by omega
    omega

/-- `binary_search_tuple(a, x)` from `utils.py`: binary search over a list
of `(key, value)` tuples.  After the loop it evaluates `a[low]` — which
raises `IndexError` on an empty list — and raises `KeyError` when the key
at `low` differs from `x`. -/
def binary_search_tuple {K V : Type} [LinearOrder K] (a : List (K × V)) (x : K) :
    Except LookupError V :=
  match a.get? (bstLoop (a.map (·.1)) x 0 (a.length - 1)) with
  | none => .error .indexError
  | some p => if p.1 = x then .ok p.2 else .error .keyError

/-! ## `score_weight.py` : constants and weighting functions -/

/-- Maximum weight for exact phrase matches. -/
def PHRASE_QUERY_WEIGHT : ℝ := 2

/-- Weight for tokens found in the document title. -/
def TITLE_TOKEN_WEIGHT : ℝ := 2

/-- Weight for tokens found in document tags. -/
def TAG_TOKEN_WEIGHT : ℝ := 1.5

/-- Weight for document recency. -/
def DATE_WEIGHT : ℝ := 0.4

/-- Optional index-elimination threshold; `None` in the source. -/
def INDEX_ELIMINATION : Option ℝ := none

/-- `calculate_tf(linear_tf)`: `0 if linear_tf == 0 else 1 + log2(linear_tf)`. -/
def calculate_tf (linear_tf : ℕ) : ℝ :=
  if linear_tf = 0 then 0 else 1 + Real.logb 2 (linear_tf : ℝ)

/-- `calculate_idf(df, n)`: `0 if df == 0 else log2(n / df)`
(`n / df` is Python float division). -/
def calculate_idf (number_of_docs_contain_token number_of_docs : ℕ) : ℝ :=
  if number_of_docs_contain_token = 0 then 0
  else Real.logb 2 ((number_of_docs : ℝ) / (number_of_docs_contain_token : ℝ))

/-- `date_score(date, max_date, min_date)`; dates are parsed timestamps. -/
def date_score (date max_date min_date : ℝ) : ℝ :=
  |(date - min_date) / max 1 (max_date - min_date)| * DATE_WEIGHT

/-- Timestamp of Python's `datetime.min` (0001-01-01T00:00:00 UTC). -/
def DATETIME_MIN : ℝ := -62135596800

/-- Timestamp of Python's `datetime.max` (9999-12-31T23:59:59 UTC). -/
def DATETIME_MAX : ℝ := 253402300799

/-! ## `models.py` : the data model -/

/-- `DocumentTokenData`: the per-(term, document) record.  `weight` is the
private `_weight` accumulator (product of per-occurrence weights). -/
structure DocumentTokenData where
  tf : ℝ
  linear_tf : ℕ
  positions : List ℤ
  weight : ℝ
deriving Inhabited

/-- A fresh `DocumentTokenData()`: `tf=-1, linear_tf=0, positions=[], _weight=1`. -/
def dtdNew : DocumentTokenData := ⟨-1, 0, [], 1⟩

/-- `DocumentTokenData.__add_position__`. -/
def DocumentTokenData.addPosition (d : DocumentTokenData) (position : ℤ)
    (weight : ℝ) : DocumentTokenData :=
  { d with positions := d.positions ++ [position],
           linear_tf := d.linear_tf + 1,
           weight := d.weight * weight }

/-- `DocumentTokenData.__update_tf__`: `tf = calculate_tf(linear_tf) * _weight`. -/
def DocumentTokenData.updateTf (d : DocumentTokenData) : DocumentTokenData :=
  { d with tf := calculate_tf d.linear_tf * d.weight }

/-- `Token`: the per-term record.  During building, `list` plays the role of
the working dict `__list__` (insertion-ordered); `__finalize__` replaces it
with the sorted postings list. -/
structure Token where
  idf : ℝ
  linear_df : ℕ
  list : List (String × DocumentTokenData)
  champions_list : Option (List (String × DocumentTokenData))

/-- A fresh `Token()`. -/
def tokenNew : Token := ⟨-1, 0, [], none⟩

instance : Inhabited Token := ⟨tokenNew⟩

/-- `Token.__add_position__`: get-or-create the document's record (creation
increments `linear_df`), then add the occurrence. -/
def Token.addPosition (t : Token) (docId : String) (position : ℤ)
    (weight : ℝ) : Token :=
  if t.list.any (fun p => p.1 = docId) then
    { t with list := t.list.map (fun p =>
        if p.1 = docId then (p.1, p.2.addPosition position weight) else p) }
  else
    { t with list := t.list ++ [(docId, dtdNew.addPosition position weight)],
             linear_df := t.linear_df + 1 }

/-- The key-ordering used by every `sorted(..., key=lambda x: x[0])` call. -/
def keyLE {α : Type} (a b : String × α) : Prop := a.1 ≤ b.1

instance {α : Type} : DecidableRel (@keyLE α) :=
  fun a b => inferInstanceAs (Decidable (a.1 ≤ b.1))

instance {α : Type} : IsTotal (String × α) keyLE := ⟨fun a b => le_total a.1 b.1⟩

instance {α : Type} : IsTrans (String × α) keyLE :=
  ⟨fun _ _ _ h1 h2 => le_trans h1 h2⟩

/-- `sorted(l, key=lambda x: x[0])`. -/
def sortByKey {α : Type} (l : List (String × α)) : List (String × α) :=
  List.insertionSort keyLE l

/-- `Token.__finalize__(number_of_documents)`: compute `idf`, update every
record's `tf`, and freeze the postings into key-sorted order. -/
def Token.finalize (t : Token) (numberOfDocuments : ℕ) : Token :=
  { idf := calculate_idf t.linear_df numberOfDocuments,
    linear_df := t.linear_df,
    list := sortByKey (t.list.map (fun p => (p.1, p.2.updateTf))),
    champions_list := t.champions_list }

/-- `Token.__get_search_scope_list__`: champions list if present, else the
full postings list. -/
def Token.scope (t : Token) : List (String × DocumentTokenData) :=
  t.champions_list.getD t.list

/-- `Token.__getitem__(doc_id)`: binary lookup in the search-scope list. -/
def Token.getItem (t : Token) (docId : String) : Except LookupError DocumentTokenData :=
  binary_search_tuple t.scope docId

/-- `Token.get_term_frequency(doc_id)`: the `try/except KeyError` wrapper
returning `linear_tf` or `0`; an `IndexError` is not caught. -/
def Token.get_term_frequency (t : Token) (docId : String) : Except LookupError ℕ :=
  match t.getItem docId with
  | .ok d => .ok d.linear_tf
  | .error .keyError => .ok 0
  | .error .indexError => .error .indexError

/-- `PositionalInvertedIndexOnMemory`.  During building, `tokens` plays the
role of the working dict `__tokens__` (insertion-ordered); `__finalize__`
replaces it with the sorted term list. -/
structure PositionalInvertedIndexOnMemory where
  tokens : List (String × Token)

/-- `PositionalInvertedIndexOnMemory.__add_token__`. -/
def PositionalInvertedIndexOnMemory.addToken
    (pii : PositionalInvertedIndexOnMemory) (tokenStr docId : String)
    (position : ℤ) (weight : ℝ) : PositionalInvertedIndexOnMemory :=
  if pii.tokens.any (fun p => p.1 = tokenStr) then
    ⟨pii.tokens.map (fun p =>
      if p.1 = tokenStr then (p.1, p.2.addPosition docId position weight) else p)⟩
  else
    ⟨pii.tokens ++ [(tokenStr, tokenNew.addPosition docId position weight)]⟩

/-- `PositionalInvertedIndexOnMemory.__finalize__(number_of_documents)`. -/
def PositionalInvertedIndexOnMemory.finalize
    (pii : PositionalInvertedIndexOnMemory) (numberOfDocuments : ℕ) :
    PositionalInvertedIndexOnMemory :=
  ⟨sortByKey (pii.tokens.map (fun p => (p.1, p.2.finalize numberOfDocuments)))⟩

/-- `PositionalInvertedIndexOnMemory.__getitem__(token)`. -/
def PositionalInvertedIndexOnMemory.getItem
    (pii : PositionalInvertedIndexOnMemory) (token : String) :
    Except LookupError Token :=
  binary_search_tuple pii.tokens token

/-- The empty builder `PositionalInvertedIndexOnMemory()`. -/
def piiEmpty : PositionalInvertedIndexOnMemory := ⟨[]⟩

/-- One `__add_token__` call: `(token_str, doc_id, position, weight)`. -/
def applyOps (ops : List (String × String × ℤ × ℝ)) :
    PositionalInvertedIndexOnMemory :=
  ops.foldl (fun pii op => pii.addToken op.1 op.2.1 op.2.2.1 op.2.2.2) piiEmpty

/-! ## Python-dict helpers (insertion-ordered association lists) -/

/-- `m.get(k)` / `m[k]`: first-match association lookup. -/
def dictGet {α : Type} (m : List (String × α)) (k : String) : Option α :=
  match m with
  | [] => none
  | p :: rest => if p.1 = k then some p.2 else dictGet rest k

/-- `m[k] += v` if present else `m[k] = v` (the accumulation pattern used
for `doc_scores` and `doc_lengths`). -/
def dictAdd (m : List (String × ℝ)) (k : String) (v : ℝ) : List (String × ℝ) :=
  if m.any (fun p => p.1 = k) then
    m.map (fun p => if p.1 = k then (p.1, p.2 + v) else p)
  else m ++ [(k, v)]

/-- `m[k] = v`: replace-or-append. -/
def dictPut {α : Type} (m : List (String × α)) (k : String) (v : α) :
    List (String × α) :=
  if m.any (fun p => p.1 = k) then
    m.map (fun p => if p.1 = k then (p.1, v) else p)
  else m ++ [(k, v)]

/-! ## `models.py` : `Document` metadata and `IRData` -/

/-- `Document` metadata as stored inside `IRData` (content dropped, tags
dropped); `date` is the parsed timestamp of the document's date string. -/
structure Document where
  id : String
  title : String
  url : String
  date : ℝ
deriving Inhabited

/-- `IRData`: index, metadata map, date range, and the precomputed
`doc_lengths` dict. -/
structure IRData where
  pii : PositionalInvertedIndexOnMemory
  docs : List (String × Document)
  max_doc_date : ℝ
  min_doc_date : ℝ
  doc_lengths : List (String × ℝ)

/-- The `doc_lengths` accumulation loop of `IRData.__init__` before the
`max(1.0, sqrt(...))` pass: for every term, for every posting, add
`(tf * idf)^2` to the document's running sum. -/
def computeDocLengthsSq (tokens : List (String × Token)) : List (String × ℝ) :=
  tokens.foldl
    (fun m p => p.2.list.foldl
      (fun m2 q => dictAdd m2 q.1 ((q.2.tf * p.2.idf) ^ 2)) m) []

/-- `IRData.__init__(pii, docs)`. -/
def IRData.init (pii : PositionalInvertedIndexOnMemory) (docs : List Document) :
    IRData :=
  { pii := pii,
    docs := docs.foldl (fun m d => dictPut m d.id d) [],
    max_doc_date := docs.foldl (fun acc d => max d.date acc) DATETIME_MIN,
    min_doc_date := docs.foldl (fun acc d => min d.date acc) DATETIME_MAX,
    doc_lengths := (computeDocLengthsSq pii.tokens).map
      (fun p => (p.1, max 1 (Real.sqrt p.2))) }

/-- `IRData.get_document_frequency`: `try/except KeyError` returning
`linear_df` or `0`. -/
def IRData.get_document_frequency (ir : IRData) (tokenStr : String) :
    Except LookupError ℕ :=
  match ir.pii.getItem tokenStr with
  | .ok t => .ok t.linear_df
  | .error .keyError => .ok 0
  | .error .indexError => .error .indexError

/-! ## `optimizer.py` : cache persistence and champions lists -/

/-- One per-document record of the cache file
(`{doc_id, tf, lf, list}`). -/
structure CacheDoc where
  doc_id : String
  tf : ℝ
  lf : ℕ
  list : List ℤ

/-- One per-term record of the cache file (`{term, idf, df, list}`). -/
structure CacheToken where
  term : String
  idf : ℝ
  df : ℕ
  list : List CacheDoc

/-- `write_cache(pii, file)`: the sequence of JSON records written. -/
def write_cache (pii : PositionalInvertedIndexOnMemory) : List CacheToken :=
  pii.tokens.map (fun p =>
    ⟨p.1, p.2.idf, p.2.linear_df,
     p.2.list.map (fun q => ⟨q.1, q.2.tf, q.2.linear_tf, q.2.positions⟩)⟩)

/-- The reconstruction loop of `read_from_cache`: rebuild Tokens and
DocumentTokenData from the parsed records (`_weight` takes its default 1,
`champions_list` its default `None`; stored `idf`/`tf` are copied, not
recomputed). -/
def read_cache_data (jsonData : List CacheToken) :
    PositionalInvertedIndexOnMemory :=
  ⟨jsonData.map (fun jt =>
    (jt.term, ⟨jt.idf, jt.df,
      jt.list.map (fun jd => (jd.doc_id, ⟨jd.tf, jd.lf, jd.list, 1⟩)), none⟩))⟩

/-- The state of the cache file: `none` models an absent file
(`FileNotFoundError`), `some (.error ())` a present but malformed file
(`json.load` raises), `some (.ok data)` a well-formed file. -/
def read_from_cache (file : Option (Except Unit (List CacheToken))) :
    Except Unit (Option PositionalInvertedIndexOnMemory) :=
  match file with
  | none => .ok none
  | some (.error e) => .error e
  | some (.ok jsonData) => .ok (some (read_cache_data jsonData))

/-- `generate_champions_list(ir, r)`: `None` is a no-op; otherwise each
token's postings are sorted by `idf * tf / doc_lengths[doc_id]` descending,
truncated to `r`, and re-sorted ascending by document id.  (The
`doc_lengths` dict access is modelled with default 1; every document
occurring in a posting has an entry, so the default is never consulted.) -/
def generate_champions_list (ir : IRData) (r : Option ℕ) : IRData :=
  match r with
  | none => ir
  | some rv =>
    { ir with pii := ⟨ir.pii.tokens.map (fun p =>
        let tfIdfFunc := fun (td : String × DocumentTokenData) =>
          p.2.idf * td.2.tf / ((dictGet ir.doc_lengths td.1).getD 1)
        let tfSorted :=
          (List.insertionSort (fun a b => tfIdfFunc b ≤ tfIdfFunc a) p.2.list).take rv
        (p.1, { p.2 with champions_list := some (sortByKey tfSorted) }))⟩ }

/-! ## `loader.py` -/

/-- A source document after the external tokenizer has run:
`weightedTokens` is the output of `get_weighted_tokens()` (title tokens
with weight `TITLE_TOKEN_WEIGHT`, tag tokens with weight
`TAG_TOKEN_WEIGHT`), `contentTokens` the output of `get_tokens()`. -/
structure DocumentSrc where
  id : String
  title : String
  url : String
  date : ℝ
  weightedTokens : List (String × ℝ)
  contentTokens : List String

/-- `create_pii(docs)`: attribute occurrences with the sentinel position
`-1`, then content occurrences at positions `0, 1, ...`; finalize with the
document count. -/
def create_pii (docs : List DocumentSrc) : PositionalInvertedIndexOnMemory :=
  (docs.foldl (fun pii d =>
    let pii1 := d.weightedTokens.foldl
      (fun p wt => p.addToken wt.1 d.id (-1) wt.2) pii
    d.contentTokens.enum.foldl
      (fun p it => p.addToken it.2 d.id (it.1 : ℤ) 1) pii1)
   piiEmpty).finalize docs.length

/-- `create_query_pii(query)`: a single synthetic document `"0"` with empty
title and no tags, whose content tokens are the tokenizer's output for the
query text. -/
def create_query_pii (queryTokens : List String) :
    PositionalInvertedIndexOnMemory :=
  create_pii [⟨"0", "", "", DATETIME_MIN, [], queryTokens⟩]

/-- The metadata view of a source document. -/
def DocumentSrc.meta (d : DocumentSrc) : Document := ⟨d.id, d.title, d.url, d.date⟩

/-- `create(file, cache, champions_list_r)`: try the cache when enabled; a
missing cache file falls through to a full rebuild, but a malformed cache
file's parse error propagates uncaught. -/
def create (cacheFile : Option (Except Unit (List CacheToken)))
    (docs : List DocumentSrc) (cache : Bool) (championsListR : Option ℕ) :
    Except Unit IRData :=
  let metaDocs := docs.map DocumentSrc.meta
  if cache then
    match read_from_cache cacheFile with
    | .error e => .error e
    | .ok (some cachePii) =>
      .ok (generate_champions_list (IRData.init cachePii metaDocs) championsListR)
    | .ok none =>
      .ok (generate_champions_list (IRData.init (create_pii docs) metaDocs) championsListR)
  else
    .ok (generate_champions_list (IRData.init (create_pii docs) metaDocs) championsListR)

/-! ## `search.py` -/

/-- The inner postings loop of `cosine_score` for one query term, with the
`INDEX_ELIMINATION` early-stop check (a no-op with the source's `None`). -/
def cosineInner (idfv wtq : ℝ) :
    List (String × DocumentTokenData) → List (String × ℝ) → List (String × ℝ)
  | [], m => m
  | dd :: rest, m =>
    let wtd := dd.2.tf * idfv
    let m2 := dictAdd m dd.1 (wtd * wtq)
    match INDEX_ELIMINATION with
    | some thr => if wtd < thr then m2 else cosineInner idfv wtq rest m2
    | none => cosineInner idfv wtq rest m2

/-- The body of `cosine_score`'s `for` loop for one query term: `wtq` is
`query_token_data.list[0][1].tf` (every query token has exactly one
posting, so the `headD` default is never consulted); a `KeyError` from the
term lookup skips the term (`continue`). -/
def cosineStep (pii : PositionalInvertedIndexOnMemory)
    (m : List (String × ℝ)) (tq : String × Token) :
    Except LookupError (List (String × ℝ)) :=
  let wtq := (tq.2.list.headD ("", dtdNew)).2.tf
  match pii.getItem tq.1 with
  | .error .keyError => .ok m
  | .error .indexError => .error .indexError
  | .ok tokenData => .ok (cosineInner tokenData.idf wtq tokenData.scope m)

/-- `cosine_score(pii, query_pii)`: for every query term present in the
index, accumulate `wtd * wtq` per visible posting. -/
def cosine_score (pii qpii : PositionalInvertedIndexOnMemory) :
    Except LookupError (List (String × ℝ)) :=
  qpii.tokens.foldlM (cosineStep pii) []

/-- `pii[term][doc_id].positions` — two chained binary lookups. -/
def lookupPositions (pii : PositionalInvertedIndexOnMemory)
    (term docId : String) : Except LookupError (List ℤ) :=
  match pii.getItem term with
  | .error e => .error e
  | .ok tok =>
    match tok.getItem docId with
    | .error e => .error e
    | .ok dd => .ok dd.positions

/-- The `while token_pos + 1 < len_of_query` loop of `phrase_query`:
advance past query terms whose lookup raises `KeyError`, stop at the first
one with a posting entry for the document. -/
def findStart (pii : PositionalInvertedIndexOnMemory)
    (qtokens : List (String × Token)) (docId : String) (tpos : ℕ) :
    Except LookupError (Option (ℕ × List ℤ)) :=
  if tpos + 1 < qtokens.length then
    match lookupPositions pii (qtokens.getD tpos ("", tokenNew)).1 docId with
    | .error .keyError => findStart pii qtokens docId (tpos + 1)
    | .error .indexError => .error .indexError
    | .ok positions => .ok (some (tpos, positions))
  else .ok none
termination_by qtokens.length - tpos

/-- The innermost loop of `phrase_query`: walk the remaining query terms
from position `pos`, counting how many further consecutive positions
match; a `KeyError` or a position miss breaks the walk. -/
def matchExtra (pii : PositionalInvertedIndexOnMemory) (docId : String) :
    List (String × Token) → ℤ → Except LookupError ℕ
  | [], _ => .ok 0
  | t :: rest, pos =>
    match lookupPositions pii t.1 docId with
    | .error .keyError => .ok 0
    | .error .indexError => .error .indexError
    | .ok sp =>
      if (pos + 1) ∈ sp then
        match matchExtra pii docId rest (pos + 1) with
        | .error e => .error e
        | .ok m => .ok (m + 1)
      else .ok 0

/-- The `for start_pos in positions` loop: skip sentinel `-1` entries and
track the longest run (`match_length = 1 + ` the extra matches). -/
def bestRun (pii : PositionalInvertedIndexOnMemory) (docId : String)
    (rest : List (String × Token)) (positions : List ℤ) :
    Except LookupError ℕ :=
  positions.foldlM (fun acc p =>
    if p = -1 then .ok acc
    else
      match matchExtra pii docId rest p with
      | .error e => .error e
      | .ok extra => .ok (max acc (1 + extra))) 0

/-- The body of `phrase_query` for one candidate document. -/
def phraseDoc (pii qpii : PositionalInvertedIndexOnMemory) (docId : String) :
    Except LookupError (Option ℝ) :=
  match findStart pii qpii.tokens docId 0 with
  | .error e => .error e
  | .ok none => .ok none
  | .ok (some tp) =>
    match bestRun pii docId (qpii.tokens.drop (tp.1 + 1)) tp.2 with
    | .error e => .error e
    | .ok maxConsecutive =>
      if 1 < maxConsecutive then
        .ok (some (1 + PHRASE_QUERY_WEIGHT *
          ((maxConsecutive : ℝ) / (qpii.tokens.length : ℝ))))
      else .ok none

/-- `phrase_query(pii, query_pii, doc_ids)`.  The candidate ids are the
keys of the cosine-score dict, hence pairwise distinct, so the dict
assignment is modelled by an append. -/
def phrase_query (pii qpii : PositionalInvertedIndexOnMemory)
    (docIds : List String) : Except LookupError (List (String × ℝ)) :=
  docIds.foldlM (fun m d =>
    match phraseDoc pii qpii d with
    | .error e => .error e
    | .ok (some v) => .ok (m ++ [(d, v)])
    | .ok none => .ok m) []

/-- The score-descending order used by `heapq.nlargest(k, ..., key)`. -/
def scoreGE {α : Type} (a b : α × ℝ) : Prop := b.2 ≤ a.2

instance {α : Type} : DecidableRel (@scoreGE α) :=
  fun a b => inferInstanceAs (Decidable (b.2 ≤ a.2))

instance {α : Type} : IsTotal (α × ℝ) scoreGE := ⟨fun a b => le_total b.2 a.2⟩

instance {α : Type} : IsTrans (α × ℝ) scoreGE :=
  ⟨fun _ _ _ h1 h2 => le_trans h2 h1⟩

/-- The per-document scoring step of `search`: normalize by the document
vector length, multiply by the phrase multiplier when phrase scoring ran
(default 1 on a missing entry), and add the date boost when enabled.
Python's `ir.docs[doc_id]` / `ir.doc_lengths[doc_id]` dict accesses are
modelled with defaults that are never consulted for documents produced by
`cosine_score` on a built collection. -/
def scoreEntry (ir : IRData) (dateFlag : Bool)
    (phraseScores : Option (List (String × ℝ))) (p : String × ℝ) :
    Document × ℝ :=
  let doc := (dictGet ir.docs p.1).getD ⟨p.1, "", "", DATETIME_MIN⟩
  let ns := p.2 / ((dictGet ir.doc_lengths p.1).getD 1)
  let ns2 :=
    match phraseScores with
    | some ps => ns * ((dictGet ps p.1).getD 1)
    | none => ns
  let ns3 :=
    if dateFlag then ns2 + date_score doc.date ir.max_doc_date ir.min_doc_date
    else ns2
  (doc, ns3)

/-- `search` up to (and including) building the scored heap contents. -/
def searchScored (ir : IRData) (qpii : PositionalInvertedIndexOnMemory)
    (dateFlag phraseFlag : Bool) : Except LookupError (List (Document × ℝ)) :=
  match cosine_score ir.pii qpii with
  | .error e => .error e
  | .ok docScores =>
    match (if phraseFlag then
             (phrase_query ir.pii qpii (docScores.map (·.1))).map some
           else .ok none) with
    | .error e => .error e
    | .ok phraseScores => .ok (docScores.map (scoreEntry ir dateFlag phraseScores))

/-- `search(ir, query, k, date_score, phrase_query_score)`:
`heapq.nlargest(k, heap, key=score)` returns the `k` largest entries in
descending score order, i.e. a stable descending sort truncated to `k`. -/
def search (ir : IRData) (qpii : PositionalInvertedIndexOnMemory) (k : ℕ)
    (dateFlag phraseFlag : Bool) : Except LookupError (List (Document × ℝ)) :=
  match searchScored ir qpii dateFlag phraseFlag with
  | .error e => .error e
  | .ok scored => .ok ((List.insertionSort scoreGE scored).take k)

/-- The field-by-field view of an index that the cache file records:
per term `(term, idf, linear_df, postings)`, per posting
`(doc_id, tf, linear_tf, positions)`. -/
def cacheView (pii : PositionalInvertedIndexOnMemory) :
    List (String × ℝ × ℕ × List (String × ℝ × ℕ × List ℤ)) :=
  pii.tokens.map (fun p =>
    (p.1, p.2.idf, p.2.linear_df,
     p.2.list.map (fun q => (q.1, q.2.tf, q.2.linear_tf, q.2.positions))))

/-! ## General lemmas about the lookup primitive -/

theorem bstLoop_le_high {K : Type} [LinearOrder K] (keys : List K) (x : K) :
    ∀ low high : ℕ, low ≤ high → bstLoop keys x low high ≤ high := by
  intro low high
  induction low, high using bstLoop.induct keys x with
  | case1 low high hlt mid hkey ih =>
    intro _
    rw [bstLoop]
    simp only [if_pos hlt, if_pos hkey]
    exact ih (by omega)
  | case2 low high hlt mid hkey ih =>
    intro _
    rw [bstLoop]
    simp only [if_pos hlt, if_neg hkey]
    have hmid_eq : mid = (low + high) / 2 := rfl
    have h2 := ih (by omega)
    rw [hmid_eq] at h2
    omega
  | case3 low high hlt =>
    intro h
    rw [bstLoop]
    simp only [if_neg hlt]
    omega

/-- On a nonempty list, `binary_search_tuple` lands on some element of the
list and either returns its value (key hit) or raises `KeyError` — never
`IndexError`. -/
theorem binary_search_tuple_total {K V : Type} [LinearOrder K]
    (a : List (K × V)) (x : K) (ha : a ≠ []) :
    ∃ hp : (bstLoop (a.map (·.1)) x 0 (a.length - 1)) < a.length,
      binary_search_tuple a x =
        if (a.get ⟨_, hp⟩).1 = x then .ok (a.get ⟨_, hp⟩).2
        else .error .keyError := by
  have hlen : 0 < a.length := List.length_pos.mpr ha
  have hle := bstLoop_le_high (a.map (·.1)) x 0 (a.length - 1) (by omega)
  have hlt : bstLoop (a.map (·.1)) x 0 (a.length - 1) < a.length := by omega
  refine ⟨hlt, ?_⟩
  unfold binary_search_tuple
  rw [List.get?_eq_get hlt]

/-- On a nonempty list a lookup never raises `IndexError`. -/
theorem binary_search_tuple_ne_indexError {K V : Type} [LinearOrder K]
    (a : List (K × V)) (x : K) (ha : a ≠ []) :
    binary_search_tuple a x ≠ .error .indexError := by
  obtain ⟨hp, heq⟩ := binary_search_tuple_total a x ha
  rw [heq]
  split <;> simp

/-- A lookup can only succeed on a key present in the list. -/
theorem binary_search_tuple_ok_mem {K V : Type} [LinearOrder K]
    {a : List (K × V)} {x : K} {v : V}
    (h : binary_search_tuple a x = .ok v) : (x, v) ∈ a := by
  unfold binary_search_tuple at h
  cases hget : a.get? (bstLoop (a.map (·.1)) x 0 (a.length - 1)) with
  | none => rw [hget] at h; exact absurd h (by simp)
  | some p =>
    rw [hget] at h
    by_cases hx : p.1 = x
    · simp only [if_pos hx, Except.ok.injEq] at h
      have hmem : p ∈ a := List.get?_mem hget
      obtain ⟨p1, p2⟩ := p
      dsimp at hx h
      rw [hx, h] at hmem
      exact hmem
    · simp [if_neg hx] at h

/-! ## Claim C7 -/

/-- **C7** (code-bug evidence): on an *empty* frozen structure — e.g. the
index of an empty collection, or a champions list generated with `r = 0` —
a lookup miss raises `IndexError` (the `a[low]` access with `low = 0`),
not the `KeyError` that the claim and the function's own docstring
promise, and the callers' `except KeyError` handlers do not catch it. -/
theorem c7_empty_lookup_raises_indexError :
    binary_search_tuple ([] : List (String × Token)) "missing" =
      .error .indexError := rfl

/-! ## Claim C9 -/

/-- **C9 counterexample**: the idf function is *not* non-increasing over
all pairs of non-negative counts: with collection size 2 it is 0 at
`linear_df = 0` but `log2 2 = 1 > 0` at `linear_df = 1`. -/
theorem c9_idf_not_antitone_counterexample :
    calculate_idf 0 2 < calculate_idf 1 2 := by
  unfold calculate_idf
  norm_num

/-- **C9 (amended)**: `calculate_tf` is non-decreasing in `linear_tf` over
all non-negative counts; `calculate_idf` is non-increasing in `linear_df`
over *positive* counts (holding the collection size fixed); and each is
exactly 0 when its respective count is 0. -/
theorem c9_amended :
    (∀ a b : ℕ, a ≤ b → calculate_tf a ≤ calculate_tf b) ∧
    (∀ n a b : ℕ, 1 ≤ a → a ≤ b → calculate_idf b n ≤ calculate_idf a n) ∧
    calculate_tf 0 = 0 ∧ (∀ n : ℕ, calculate_idf 0 n = 0) := by
  refine ⟨?_, ?_, by simp [calculate_tf], fun n => by simp [calculate_idf]⟩
  · intro a b hab
    unfold calculate_tf
    by_cases ha : a = 0
    · subst ha
      rw [if_pos rfl]
      by_cases hb : b = 0
      · rw [if_pos hb]
      · rw [if_neg hb]
        have h1 : (1:ℝ) ≤ (b:ℝ) := by
          exact_mod_cast Nat.one_le_iff_ne_zero.mpr hb
        have := Real.logb_nonneg (b := 2) (by norm_num) h1
        linarith
    · have hb : b ≠ 0 := by omega
      simp only [if_neg ha, if_neg hb]
      have h1 : (0:ℝ) < (a:ℝ) := by exact_mod_cast Nat.pos_of_ne_zero ha
      have h2 : (0:ℝ) < (b:ℝ) := by exact_mod_cast Nat.pos_of_ne_zero hb
      have hmono := (Real.logb_le_logb (b := 2) (by norm_num) h1 h2).mpr
        (by exact_mod_cast hab)
      linarith
  · intro n a b h1 hab
    unfold calculate_idf
    have ha : a ≠ 0 := by omega
    have hb : b ≠ 0 := by omega
    simp only [if_neg ha, if_neg hb]
    have haR : (0:ℝ) < (a:ℝ) := by exact_mod_cast Nat.pos_of_ne_zero ha
    have hbR : (0:ℝ) < (b:ℝ) := by exact_mod_cast Nat.pos_of_ne_zero hb
    by_cases hn : n = 0
    · subst hn; simp
    · have hnR : (0:ℝ) < (n:ℝ) := by exact_mod_cast Nat.pos_of_ne_zero hn
      have hna : (0:ℝ) < (n:ℝ) / (a:ℝ) := by positivity
      have hnb : (0:ℝ) < (n:ℝ) / (b:ℝ) := by positivity
      refine (Real.logb_le_logb (b := 2) (by norm_num) hnb hna).mpr ?_
      have habR : (a:ℝ) ≤ (b:ℝ) := by exact_mod_cast hab
      exact div_le_div_of_nonneg_left (le_of_lt hnR) haR habR

/-- **C9 witness**: the amended monotonicity facts applied at concrete
counts. -/
theorem c9_witness :
    calculate_tf 1 ≤ calculate_tf 2 ∧ calculate_idf 3 5 ≤ calculate_idf 2 5 ∧
    calculate_tf 0 = 0 ∧ calculate_idf 0 7 = 0 :=
  ⟨c9_amended.1 1 2 (by norm_num),
   c9_amended.2.1 5 2 3 (by norm_num) (by norm_num),
   c9_amended.2.2.1, c9_amended.2.2.2 7⟩

/-! ## Claim C3 -/

/-- **C3**: reading back the cache written for a finalized index yields an
index with the identical term sequence in identical order, identical idf
and linear_df per term, and identical tf, linear_tf and positions per
posting in identical order; the stored values are reproduced verbatim
(`read_cache_data` copies them, it never calls the tf/idf functions). -/
theorem c3_cache_round_trip (pii : PositionalInvertedIndexOnMemory) :
    read_from_cache (some (.ok (write_cache pii))) =
      .ok (some (read_cache_data (write_cache pii))) ∧
    cacheView (read_cache_data (write_cache pii)) = cacheView pii := by
  refine ⟨rfl, ?_⟩
  unfold cacheView read_cache_data write_cache
  simp only [List.map_map]
  apply List.map_congr_left
  rintro ⟨s, tok⟩ _
  simp only [Function.comp, List.map_map]
  apply congrArg
  apply congrArg
  apply congrArg
  apply List.map_congr_left
  rintro ⟨d, dtd⟩ _
  rfl

/-! ## Claim C10 -/

/-- **C10**: when tokenizing the query yields no terms, the query index has
an empty vocabulary, `cosine_score` produces an empty score map, and
`search` returns the empty list for every collection, every `k` and every
flag combination. -/
theorem c10_empty_query_returns_empty (ir : IRData) (k : ℕ)
    (dateFlag phraseFlag : Bool) :
    (create_query_pii []).tokens = [] ∧
    cosine_score ir.pii (create_query_pii []) = .ok [] ∧
    search ir (create_query_pii []) k dateFlag phraseFlag = .ok [] := by
  refine ⟨rfl, rfl, ?_⟩
  cases phraseFlag
  · have h : searchScored ir (create_query_pii []) dateFlag false = .ok [] := rfl
    simp [search, h, List.insertionSort]
  · have h : searchScored ir (create_query_pii []) dateFlag true = .ok [] := rfl
    simp [search, h, List.insertionSort]

/-! ## Claim C8 -/

/-- **C8 counterexample**: with the cache resource present but malformed,
`create` does *not* fall back to rebuilding from source — the parse
failure propagates out of `create` uncaught. -/
theorem c8_malformed_cache_counterexample :
    create (some (.error ())) [] true none = .error () := rfl

/-- **C8 (amended)**: a missing cache resource is reported as a cache miss
(`None`), and `create` then rebuilds from source exactly as it does with
caching disabled; but a present-and-malformed cache makes the load
attempt's parse error propagate out of `create` instead of falling back to
a rebuild. -/
theorem c8_amended (docs : List DocumentSrc) (r : Option ℕ) (e : Unit) :
    read_from_cache none = .ok none ∧
    create none docs true r = create none docs false r ∧
    create (some (.error e)) docs true r = .error e :=
  ⟨rfl, rfl, rfl⟩

/-! ## Builder invariants (unique keys), used for claim C2 -/

/-- Updating values in place never changes the key sequence. -/
theorem keys_map_update {α : Type} (l : List (String × α)) (k : String)
    (g : String × α → α) :
    ((l.map (fun p => if p.1 = k then (p.1, g p) else p)).map (·.1)) =
      l.map (·.1) := by
  induction l with
  | nil => rfl
  | cons a t ih => by_cases h : a.1 = k <;> simp [h, ih]

/-- Re-pairing values never changes the key sequence. -/
theorem keys_map_snd {α β : Type} (l : List (String × α)) (g : String × α → β) :
    ((l.map (fun r => (r.1, g r))).map (·.1)) = l.map (·.1) := by
  induction l with
  | nil => rfl
  | cons a t ih => simp [ih]

/-- `Token.__add_position__` keeps the working dict's keys unique. -/
theorem token_addPosition_keys_nodup (t : Token) (docId : String) (pos : ℤ)
    (w : ℝ) (h : (t.list.map (·.1)).Nodup) :
    (((t.addPosition docId pos w).list).map (·.1)).Nodup := by
  unfold Token.addPosition
  by_cases hmem : t.list.any (fun p => p.1 = docId)
  · simp only [if_pos hmem]
    rw [keys_map_update]
    exact h
  · simp only [if_neg hmem]
    have hd : docId ∉ t.list.map (·.1) := by
      simp only [List.any_eq_true, decide_eq_true_eq] at hmem
      push_neg at hmem
      simp only [List.mem_map]
      rintro ⟨p, hp, hpk⟩
      exact hmem p hp hpk
    simp [List.nodup_append, h, hd]

/-- The invariant maintained while building: the term keys are unique and
every token's working postings dict has unique document keys. -/
def BuilderInv (pii : PositionalInvertedIndexOnMemory) : Prop :=
  (pii.tokens.map (·.1)).Nodup ∧
  ∀ p ∈ pii.tokens, (p.2.list.map (·.1)).Nodup

theorem addToken_inv (pii : PositionalInvertedIndexOnMemory)
    (ts d : String) (pos : ℤ) (w : ℝ) (h : BuilderInv pii) :
    BuilderInv (pii.addToken ts d pos w) := by
  obtain ⟨h1, h2⟩ := h
  unfold PositionalInvertedIndexOnMemory.addToken
  by_cases hmem : pii.tokens.any (fun p => p.1 = ts)
  · simp only [if_pos hmem]
    refine ⟨?_, ?_⟩
    · show ((pii.tokens.map (fun p =>
        if p.1 = ts then (p.1, p.2.addPosition d pos w) else p)).map (·.1)).Nodup
      rw [keys_map_update]; exact h1
    · intro p hp
      replace hp : p ∈ pii.tokens.map (fun p =>
        if p.1 = ts then (p.1, p.2.addPosition d pos w) else p) := hp
      obtain ⟨q, hq, hqe⟩ := List.mem_map.mp hp
      by_cases hqt : q.1 = ts
      · rw [if_pos hqt] at hqe
        subst hqe
        exact token_addPosition_keys_nodup _ _ _ _ (h2 q hq)
      · rw [if_neg hqt] at hqe
        subst hqe
        exact h2 q hq
  · simp only [if_neg hmem]
    refine ⟨?_, ?_⟩
    · show ((pii.tokens ++
        [(ts, tokenNew.addPosition d pos w)]).map (·.1)).Nodup
      have hd : ts ∉ pii.tokens.map (·.1) := by
        simp only [List.any_eq_true, decide_eq_true_eq] at hmem
        push_neg at hmem
        simp only [List.mem_map]
        rintro ⟨p, hp, hpk⟩
        exact hmem p hp hpk
      simp [List.nodup_append, h1, hd]
    · intro p hp
      replace hp : p ∈ pii.tokens ++ [(ts, tokenNew.addPosition d pos w)] := hp
      rw [List.mem_append] at hp
      cases hp with
      | inl hp => exact h2 p hp
      | inr hp =>
        rw [List.mem_singleton] at hp
        subst hp
        simp [Token.addPosition, tokenNew]

theorem foldl_addToken_inv (ops : List (String × String × ℤ × ℝ)) :
    ∀ pii, BuilderInv pii →
      BuilderInv (ops.foldl
        (fun pii op => pii.addToken op.1 op.2.1 op.2.2.1 op.2.2.2) pii) := by
  induction ops with
  | nil => intro pii h; exact h
  | cons op rest ih => intro pii h; exact ih _ (addToken_inv _ _ _ _ _ h)

theorem applyOps_inv (ops : List (String × String × ℤ × ℝ)) :
    BuilderInv (applyOps ops) :=
  foldl_addToken_inv ops piiEmpty ⟨by simp [piiEmpty], by simp [piiEmpty]⟩

/-! ## Sorting lemmas -/

theorem sortByKey_sorted {α : Type} (l : List (String × α)) :
    List.Sorted keyLE (sortByKey l) :=
  List.sorted_insertionSort keyLE l

theorem sortByKey_perm {α : Type} (l : List (String × α)) :
    (sortByKey l).Perm l :=
  List.perm_insertionSort keyLE l

/-- A key-sorted list with pairwise-distinct keys has strictly ascending
keys. -/
theorem sorted_keys_strict {α : Type} {l : List (String × α)}
    (hs : List.Sorted keyLE l) (hn : (l.map (·.1)).Nodup) :
    List.Sorted (· < ·) (l.map (·.1)) := by
  have hn' : l.Pairwise (fun a b => a.1 ≠ b.1) := List.pairwise_map.mp hn
  have hs' : l.Pairwise (fun a b : String × α => a.1 ≤ b.1) := hs
  exact List.pairwise_map.mpr ((hs'.and hn').imp fun h => lt_of_le_of_ne h.1 h.2)

/-! ## Claim C2 -/

/-- **C2**: for every index built by `__add_token__` calls and finalized
with `document_count = n`, every posting record satisfies
`tf = 0 if linear_tf == 0 else (1 + log2 linear_tf) * weight_factor`,
every token satisfies `idf = 0 if linear_df == 0 else log2(n / linear_df)`,
every token's postings are in (strictly) ascending `document_id` order, and
the index's terms are in (strictly) ascending lexicographic order. -/
theorem c2_finalize_correct (ops : List (String × String × ℤ × ℝ)) (n : ℕ)
    (p : String × Token) (hp : p ∈ ((applyOps ops).finalize n).tokens) :
    (p.2.idf = if p.2.linear_df = 0 then 0
       else Real.logb 2 ((n : ℝ) / (p.2.linear_df : ℝ))) ∧
    (∀ q ∈ p.2.list,
       q.2.tf = if q.2.linear_tf = 0 then 0
         else (1 + Real.logb 2 (q.2.linear_tf : ℝ)) * q.2.weight) ∧
    List.Sorted (· < ·) (p.2.list.map (·.1)) ∧
    List.Sorted (· < ·) ((((applyOps ops).finalize n).tokens).map (·.1)) := by
  obtain ⟨hnd, hval⟩ := applyOps_inv ops
  have hfin : (((applyOps ops).finalize n).tokens) =
      sortByKey ((applyOps ops).tokens.map (fun r => (r.1, r.2.finalize n))) := rfl
  have hp' : p ∈ (applyOps ops).tokens.map (fun r => (r.1, r.2.finalize n)) :=
    ((sortByKey_perm _).mem_iff).mp (hfin ▸ hp)
  obtain ⟨q, hq, hpq⟩ := List.mem_map.mp hp'
  refine ⟨?_, ?_, ?_, ?_⟩
  · subst hpq; rfl
  · intro q' hq'
    subst hpq
    have hlist : (q.2.finalize n).list =
        sortByKey (q.2.list.map (fun r => (r.1, r.2.updateTf))) := rfl
    have hq'' : q' ∈ q.2.list.map (fun r => (r.1, r.2.updateTf)) :=
      ((sortByKey_perm _).mem_iff).mp (hlist ▸ hq')
    obtain ⟨r, _, hrq⟩ := List.mem_map.mp hq''
    subst hrq
    show calculate_tf r.2.linear_tf * r.2.weight = _
    unfold calculate_tf
    by_cases h0 : r.2.linear_tf = 0
    · simp [DocumentTokenData.updateTf, h0]
    · simp [DocumentTokenData.updateTf, h0]
  · subst hpq
    have hlist : (q.2.finalize n).list =
        sortByKey (q.2.list.map (fun r => (r.1, r.2.updateTf))) := rfl
    rw [hlist]
    refine sorted_keys_strict (sortByKey_sorted _) ?_
    have hperm := (sortByKey_perm
      (q.2.list.map (fun r => (r.1, r.2.updateTf)))).map (·.1)
    rw [hperm.nodup_iff, keys_map_snd]
    exact hval q hq
  · rw [hfin]
    refine sorted_keys_strict (sortByKey_sorted _) ?_
    have hperm := (sortByKey_perm
      ((applyOps ops).tokens.map (fun r => (r.1, r.2.finalize n)))).map (·.1)
    rw [hperm.nodup_iff, keys_map_snd]
    exact hnd

/-- The single-occurrence example used to witness C2. -/
def c2ops : List (String × String × ℤ × ℝ) := [("a", "d1", 0, 1)]

/-- The unique term entry of the finalized C2 example. -/
def c2entry : String × Token := ("a", (tokenNew.addPosition "d1" 0 1).finalize 1)

/-- The unique posting of the finalized C2 example. -/
def c2posting : String × DocumentTokenData :=
  ("d1", (dtdNew.addPosition 0 1).updateTf)

/-- **C2 witness**: the finalize theorem applied to a concrete
one-occurrence index. -/
theorem c2_witness :
    c2entry ∈ ((applyOps c2ops).finalize 1).tokens ∧
    c2posting ∈ c2entry.2.list ∧
    (c2entry.2.idf = if c2entry.2.linear_df = 0 then 0
       else Real.logb 2 (((1:ℕ) : ℝ) / (c2entry.2.linear_df : ℝ))) ∧
    (c2posting.2.tf = if c2posting.2.linear_tf = 0 then 0
       else (1 + Real.logb 2 (c2posting.2.linear_tf : ℝ)) * c2posting.2.weight) ∧
    List.Sorted (· < ·) (c2entry.2.list.map (·.1)) ∧
    List.Sorted (· < ·) ((((applyOps c2ops).finalize 1).tokens).map (·.1)) := by
  have htoks : ((applyOps c2ops).finalize 1).tokens = [c2entry] := rfl
  have hp : c2entry ∈ ((applyOps c2ops).finalize 1).tokens := by
    rw [htoks]; exact List.mem_singleton_self _
  have hlist : c2entry.2.list = [c2posting] := rfl
  have hq : c2posting ∈ c2entry.2.list := by
    rw [hlist]; exact List.mem_singleton_self _
  have h := c2_finalize_correct c2ops 1 c2entry hp
  exact ⟨hp, hq, h.1, h.2.1 c2posting hq, h.2.2.1, h.2.2.2⟩

/-! ## Claim C6 -/

/-- **C6**: champions-list generation with `r = None` is a no-op (every
champions list stays absent); with an integer `r`, every token's champions
list exists, has size at most `r`, is a subset of that token's full
postings (it keeps the `r` postings with the highest
`idf * tf / document_vector_length` score), and is sorted ascending by
document id. -/
theorem c6_champions_invariant (ir : IRData) :
    generate_champions_list ir none = ir ∧
    ∀ (rv : ℕ) (p : String × Token) (c : List (String × DocumentTokenData)),
      p ∈ (generate_champions_list ir (some rv)).pii.tokens →
      p.2.champions_list = some c →
      c.length ≤ rv ∧ (∀ x ∈ c, x ∈ p.2.list) ∧
      List.Sorted (· ≤ ·) (c.map (·.1)) := by
  refine ⟨rfl, ?_⟩
  intro rv p c hp hc
  unfold generate_champions_list at hp
  replace hp : p ∈ ir.pii.tokens.map (fun p =>
    let tfIdfFunc := fun (td : String × DocumentTokenData) =>
      p.2.idf * td.2.tf / ((dictGet ir.doc_lengths td.1).getD 1)
    let tfSorted :=
      (List.insertionSort (fun a b => tfIdfFunc b ≤ tfIdfFunc a) p.2.list).take rv
    (p.1, { p.2 with champions_list := some (sortByKey tfSorted) })) := hp
  obtain ⟨q, _, hqe⟩ := List.mem_map.mp hp
  subst hqe
  simp only at hc
  have hceq : c = sortByKey ((List.insertionSort
      (fun a b =>
        q.2.idf * b.2.tf / ((dictGet ir.doc_lengths b.1).getD 1) ≤
        q.2.idf * a.2.tf / ((dictGet ir.doc_lengths a.1).getD 1))
      q.2.list).take rv) := by
    have := hc
    simp only [Option.some.injEq] at this
    exact this.symm
  subst hceq
  refine ⟨?_, ?_, ?_⟩
  · rw [(sortByKey_perm _).length_eq]
    exact List.length_take_le _ _
  · intro x hx
    have hx1 : x ∈ (List.insertionSort
        (fun a b =>
          q.2.idf * b.2.tf / ((dictGet ir.doc_lengths b.1).getD 1) ≤
          q.2.idf * a.2.tf / ((dictGet ir.doc_lengths a.1).getD 1))
        q.2.list).take rv := ((sortByKey_perm _).mem_iff).mp hx
    have hx2 := List.mem_of_mem_take hx1
    exact (List.perm_insertionSort _ _).mem_iff.mp hx2
  · exact List.pairwise_map.mpr ((sortByKey_sorted _).imp fun h => h)

/-- The one-posting collection used to witness C6. -/
def c6pii : PositionalInvertedIndexOnMemory :=
  (applyOps [("a", "d1", 0, 1)]).finalize 1

/-- The C6 witness collection. -/
def c6ir : IRData := IRData.init c6pii [⟨"d1", "t", "u", 0⟩]

/-- The token of the C6 witness collection, before champions generation. -/
def c6tok : Token := (tokenNew.addPosition "d1" 0 1).finalize 1

/-- The champions list generated for the C6 witness with `r = 1`. -/
def c6champ : List (String × DocumentTokenData) :=
  [("d1", (dtdNew.addPosition 0 1).updateTf)]

/-- The term entry of the C6 witness collection after champions
generation. -/
def c6entry : String × Token :=
  ("a", { c6tok with champions_list := some c6champ })

/-- The unique champion posting of the C6 witness. -/
def c6post : String × DocumentTokenData := ("d1", (dtdNew.addPosition 0 1).updateTf)

/-- **C6 witness**: the champions invariant applied to a concrete
one-token collection with `r = 1`. -/
theorem c6_witness :
    generate_champions_list c6ir none = c6ir ∧
    c6entry ∈ (generate_champions_list c6ir (some 1)).pii.tokens ∧
    c6champ.length ≤ 1 ∧ c6post ∈ c6entry.2.list ∧
    List.Sorted (· ≤ ·) (c6champ.map (·.1)) := by
  have hp : c6entry ∈ (generate_champions_list c6ir (some 1)).pii.tokens := by
    have h : (generate_champions_list c6ir (some 1)).pii.tokens = [c6entry] := rfl
    rw [h]
    exact List.mem_singleton_self _
  have hc : c6entry.2.champions_list = some c6champ := rfl
  have h := (c6_champions_invariant c6ir).2 1 c6entry c6champ hp hc
  have hmem : c6post ∈ c6champ := List.mem_singleton_self _
  exact ⟨(c6_champions_invariant c6ir).1, hp, h.1, h.2.1 c6post hmem, h.2.2⟩

/-! ## Claim C4 -/

/-- **C4 (amended)**: `search` results are sorted descending by score
(adjacent scores non-increasing; ties keep equal scores adjacent, so the
order is not strict in general), the result length is at most `k`, and at
most the number of documents *with a cosine-score entry* (zero-score
entries included). -/
theorem c4_amended (ir : IRData) (qpii : PositionalInvertedIndexOnMemory)
    (k : ℕ) (df pf : Bool) (res : List (Document × ℝ))
    (ds : List (String × ℝ))
    (hs : search ir qpii k df pf = .ok res)
    (hc : cosine_score ir.pii qpii = .ok ds) :
    List.Sorted (fun a b : Document × ℝ => b.2 ≤ a.2) res ∧
    res.length ≤ k ∧ res.length ≤ ds.length := by
  unfold search at hs
  cases hss : searchScored ir qpii df pf with
  | error e => rw [hss] at hs; cases hs
  | ok scored =>
    rw [hss] at hs
    simp only [Except.ok.injEq] at hs
    subst hs
    have hlen : scored.length = ds.length := by
      unfold searchScored at hss
      rw [hc] at hss
      dsimp only at hss
      cases hps : (if pf then
          (phrase_query ir.pii qpii (ds.map (·.1))).map some
        else .ok none) with
      | error e => rw [hps] at hss; cases hss
      | ok phraseScores =>
        rw [hps] at hss
        simp only [Except.ok.injEq] at hss
        rw [← hss, List.length_map]
    refine ⟨?_, ?_, ?_⟩
    · have hsorted : List.Sorted scoreGE (List.insertionSort scoreGE scored) :=
        List.sorted_insertionSort _ _
      exact List.Pairwise.sublist (List.take_sublist k _) hsorted
    · exact List.length_take_le _ _
    · rw [List.length_take, (List.perm_insertionSort scoreGE scored).length_eq,
        hlen]
      omega

/-! ### Evaluation helpers for concrete inputs -/

/-- A lookup in a one-element list hits index 0. -/
theorem bst_singleton {K V : Type} [LinearOrder K] (p : K × V) (x : K) :
    binary_search_tuple [p] x =
      if p.1 = x then .ok p.2 else .error .keyError := by
  unfold binary_search_tuple
  rw [show bstLoop ([p].map (·.1)) x 0 ([p].length - 1) = 0 from by
    rw [bstLoop]; simp]
  rfl

/-- Sorting an already-ordered two-element list is the identity. -/
theorem sortByKey_pair {α : Type} (k1 k2 : String) (v1 v2 : α) (h : k1 ≤ k2) :
    sortByKey [(k1, v1), (k2, v2)] = [(k1, v1), (k2, v2)] := by
  unfold sortByKey
  simp only [List.insertionSort, List.orderedInsert]
  rw [if_pos (show keyLE (k1, v1) (k2, v2) from h)]

/-! ### The C4 counterexample collection: two identical documents -/

/-- Two documents, each containing the single content token `"a"`. -/
def c4pii : PositionalInvertedIndexOnMemory :=
  (applyOps [("a", "d1", 0, 1), ("a", "d2", 0, 1)]).finalize 2

/-- First of the two identical documents. -/
def c4doc1 : Document := ⟨"d1", "t", "u", 0⟩

/-- Second of the two identical documents. -/
def c4doc2 : Document := ⟨"d2", "t", "u", 0⟩

/-- Metadata of the two identical documents (equal dates). -/
def c4docs : List Document := [c4doc1, c4doc2]

/-- The C4 counterexample collection. -/
def c4ir : IRData := IRData.init c4pii c4docs

/-- The query index for query token `"a"`. -/
def c4q : PositionalInvertedIndexOnMemory := create_query_pii ["a"]

/-- The posting record shared by both documents (and the query). -/
def c4A : DocumentTokenData := (dtdNew.addPosition 0 1).updateTf

/-- The finalized token of the counterexample collection. -/
def c4tokfin : Token :=
  ((tokenNew.addPosition "d1" 0 1).addPosition "d2" 0 1).finalize 2

/-- The finalized token of the query index. -/
def c4qtok : Token := (tokenNew.addPosition "0" 0 1).finalize 1

theorem c4pii_tokens : c4pii.tokens = [("a", c4tokfin)] := rfl

theorem c4q_tokens : c4q.tokens = [("a", c4qtok)] := rfl

theorem c4tokfin_list : c4tokfin.list = [("d1", c4A), ("d2", c4A)] := by
  have hle12 : ("d1" : String) ≤ "d2" := by
    rw [String.le_iff_toList_le]; decide
  show sortByKey [("d1", c4A), ("d2", c4A)] = _
  exact sortByKey_pair _ _ _ _ hle12

theorem c4tokfin_idf : c4tokfin.idf = 0 := by
  show calculate_idf 2 2 = 0
  unfold calculate_idf
  norm_num

/-- The term occurs in both of the two documents, so its idf is
`log2(2/2) = 0` and every cosine contribution vanishes. -/
theorem c4_cosine_eval :
    cosine_score c4ir.pii c4q = .ok [("d1", 0), ("d2", 0)] := by
  have hget : c4pii.getItem "a" = .ok c4tokfin := by
    show binary_search_tuple c4pii.tokens "a" = _
    rw [c4pii_tokens, bst_singleton]
    simp
  have hscope : c4tokfin.scope = [("d1", c4A), ("d2", c4A)] := by
    rw [← c4tokfin_list]; rfl
  show cosine_score c4pii c4q = _
  unfold cosine_score
  rw [c4q_tokens]
  simp only [List.foldlM_cons, List.foldlM_nil]
  unfold cosineStep
  rw [hget]
  dsimp only
  rw [hscope, c4tokfin_idf]
  simp [cosineInner, dictAdd, INDEX_ELIMINATION]

theorem c4_phrase_eval :
    phrase_query c4pii c4q ["d1", "d2"] = .ok [] := by
  have hpd : ∀ d, phraseDoc c4pii c4q d = .ok none := by
    intro d
    unfold phraseDoc
    rw [show findStart c4pii c4q.tokens d 0 = .ok none from by
      rw [findStart]; simp [c4q_tokens]]
  unfold phrase_query
  simp only [List.foldlM_cons, List.foldlM_nil, hpd]
  rfl

theorem c4ir_max_date : c4ir.max_doc_date = 0 := by
  show max (0:ℝ) (max 0 DATETIME_MIN) = 0
  norm_num [DATETIME_MIN]

theorem c4ir_min_date : c4ir.min_doc_date = 0 := by
  show min (0:ℝ) (min 0 DATETIME_MAX) = 0
  norm_num [DATETIME_MAX]

theorem c4_search_eval :
    search c4ir c4q 10 true true = .ok [(c4doc1, 0), (c4doc2, 0)] := by
  have hdate : date_score 0 c4ir.max_doc_date c4ir.min_doc_date = 0 := by
    rw [c4ir_max_date, c4ir_min_date]
    simp [date_score]
  have hdocs : c4ir.docs = [("d1", c4doc1), ("d2", c4doc2)] := by
    show List.foldl (fun m d => dictPut m d.id d) [] c4docs = _
    simp [c4docs, dictPut, c4doc1, c4doc2]
  have hse1 : scoreEntry c4ir true (some []) ("d1", 0) = (c4doc1, 0) := by
    unfold scoreEntry
    rw [hdocs]
    have hd : c4doc1.date = 0 := rfl
    simp [dictGet, hd, hdate]
  have hse2 : scoreEntry c4ir true (some []) ("d2", 0) = (c4doc2, 0) := by
    unfold scoreEntry
    rw [hdocs]
    have hd : c4doc2.date = 0 := rfl
    simp [dictGet, hd, hdate]
  have hscored : searchScored c4ir c4q true true = .ok [(c4doc1, 0), (c4doc2, 0)] := by
    unfold searchScored
    rw [show cosine_score c4ir.pii c4q = .ok [("d1", 0), ("d2", 0)] from
      c4_cosine_eval]
    dsimp only
    simp only [List.map_cons, List.map_nil, eq_self_iff_true, if_true]
    rw [show phrase_query c4ir.pii c4q ["d1", "d2"] = .ok [] from c4_phrase_eval]
    dsimp only [Except.map]
    simp [hse1, hse2]
  unfold search
  rw [hscored]
  dsimp only
  rw [show List.insertionSort scoreGE [(c4doc1, (0:ℝ)), (c4doc2, 0)] =
      [(c4doc1, (0:ℝ)), (c4doc2, 0)] from by
    simp only [List.insertionSort, List.orderedInsert]
    rw [if_pos (show scoreGE (c4doc1, (0:ℝ)) (c4doc2, 0) from le_refl 0)]]
  rfl

/-- **C4 counterexample**: two identical one-token documents.  The query
term occurs in every document, so its idf — hence every cosine score — is
0: the number of documents with *nonzero* cosine score is 0, yet `search`
returns both documents, and the two returned scores are equal, so the
result is not sorted *strictly* descending. -/
theorem c4_counterexample :
    cosine_score c4ir.pii c4q = .ok [("d1", 0), ("d2", 0)] ∧
    (([(("d1" : String), (0:ℝ)), ("d2", 0)]).filter
      (fun p => p.2 ≠ 0)).length = 0 ∧
    search c4ir c4q 10 true true = .ok [(c4doc1, 0), (c4doc2, 0)] ∧
    ([(c4doc1, (0:ℝ)), (c4doc2, 0)]).length = 2 ∧
    ¬ List.Sorted (fun a b : Document × ℝ => b.2 < a.2)
      [(c4doc1, (0:ℝ)), (c4doc2, 0)] := by
  refine ⟨c4_cosine_eval, by simp, c4_search_eval, rfl, ?_⟩
  intro h
  exact absurd (List.rel_of_pairwise_cons h (List.mem_singleton_self _))
    (lt_irrefl 0)

/-! ## Dictionary-accumulation lemmas (towards claim C1) -/

theorem dictGet_nil {α : Type} (k : String) :
    dictGet ([] : List (String × α)) k = none := rfl

theorem dictGet_cons {α : Type} (p : String × α) (m : List (String × α))
    (k : String) :
    dictGet (p :: m) k = if p.1 = k then some p.2 else dictGet m k := rfl

theorem dictGet_append {α : Type} (m1 m2 : List (String × α)) (k : String) :
    dictGet (m1 ++ m2) k =
      match dictGet m1 k with
      | some v => some v
      | none => dictGet m2 k := by
  induction m1 with
  | nil => simp [dictGet]
  | cons a t ih => by_cases h : a.1 = k <;> simp [dictGet, h, ih]

theorem dictGet_map_update_add (m : List (String × ℝ)) (k k' : String)
    (v : ℝ) :
    dictGet (m.map (fun p => if p.1 = k then (p.1, p.2 + v) else p)) k' =
      if k' = k then (dictGet m k).map (· + v) else dictGet m k' := by
  induction m with
  | nil => simp [dictGet]
  | cons a t ih =>
    by_cases hak : a.1 = k <;> by_cases hk' : k' = k <;>
      simp_all [dictGet] <;> simp [Ne.symm hk']

theorem any_key_iff {α : Type} (m : List (String × α)) (k : String) :
    (m.any (fun p => p.1 = k)) = true ↔ (dictGet m k).isSome := by
  induction m with
  | nil => simp [dictGet]
  | cons a t ih => by_cases h : a.1 = k <;> simp [dictGet, h, ih]

theorem dictGet_dictAdd (m : List (String × ℝ)) (k k' : String) (v : ℝ) :
    dictGet (dictAdd m k v) k' =
      if k' = k then some ((dictGet m k).getD 0 + v) else dictGet m k' := by
  unfold dictAdd
  by_cases hany : (m.any (fun p => p.1 = k)) = true
  · rw [if_pos hany, dictGet_map_update_add]
    have hsome : (dictGet m k).isSome := (any_key_iff m k).mp hany
    obtain ⟨w, hw⟩ := Option.isSome_iff_exists.mp hsome
    rw [hw]
    split <;> simp [hw]
  · rw [if_neg hany, dictGet_append]
    have hnone : dictGet m k = none := by
      cases ho : dictGet m k with
      | none => rfl
      | some w => exact absurd ((any_key_iff m k).mpr (by simp [ho])) hany
    by_cases hk' : k' = k
    · subst hk'
      rw [hnone]
      simp [dictGet]
    · rw [if_neg hk']
      cases ho : dictGet m k' with
      | none => simp [ho, dictGet, Ne.symm hk']
      | some w => simp [ho]

theorem dictGet_map_sqrt (m : List (String × ℝ)) (k : String) :
    dictGet (m.map (fun p => (p.1, max 1 (Real.sqrt p.2)))) k =
      (dictGet m k).map (fun s => max 1 (Real.sqrt s)) := by
  induction m with
  | nil => simp [dictGet]
  | cons a t ih => by_cases h : a.1 = k <;> simp [dictGet, h, ih]

/-- The claim's per-document squared vector length: the sum, over all
terms whose full postings contain the document, of `(tf * idf)^2`. -/
def docLengthSq (tokens : List (String × Token)) (docId : String) : ℝ :=
  (tokens.map (fun p =>
    ((p.2.list.filter (fun q => q.1 = docId)).map
      (fun q => (q.2.tf * p.2.idf) ^ 2)).sum)).sum

theorem innerFold_getD (l : List (String × DocumentTokenData)) (idfv : ℝ)
    (docId : String) :
    ∀ m : List (String × ℝ),
      (dictGet (l.foldl
        (fun m2 q => dictAdd m2 q.1 ((q.2.tf * idfv) ^ 2)) m) docId).getD 0 =
      (dictGet m docId).getD 0 +
        ((l.filter (fun q => q.1 = docId)).map
          (fun q => (q.2.tf * idfv) ^ 2)).sum := by
  induction l with
  | nil => intro m; simp
  | cons q t ih =>
    intro m
    simp only [List.foldl_cons]
    rw [ih, dictGet_dictAdd]
    by_cases hq : q.1 = docId
    · rw [if_pos hq.symm]
      simp only [List.filter_cons, hq, decide_True, List.map_cons, List.sum_cons,
        if_true, Option.getD_some]
      ring
    · rw [if_neg (fun h => hq h.symm)]
      simp [List.filter_cons, hq]

theorem innerFold_isSome (l : List (String × DocumentTokenData)) (idfv : ℝ)
    (docId : String) :
    ∀ m : List (String × ℝ),
      (dictGet (l.foldl
        (fun m2 q => dictAdd m2 q.1 ((q.2.tf * idfv) ^ 2)) m) docId).isSome ↔
      (dictGet m docId).isSome ∨ ∃ q ∈ l, q.1 = docId := by
  induction l with
  | nil => intro m; simp
  | cons q t ih =>
    intro m
    simp only [List.foldl_cons]
    rw [ih, dictGet_dictAdd]
    by_cases hq : q.1 = docId
    · rw [if_pos hq.symm]
      simp [hq]
    · rw [if_neg (fun h => hq h.symm)]
      simp [hq]

theorem outerFold_getD (tokens : List (String × Token)) (docId : String) :
    ∀ m : List (String × ℝ),
      (dictGet (tokens.foldl
        (fun m p => p.2.list.foldl
          (fun m2 q => dictAdd m2 q.1 ((q.2.tf * p.2.idf) ^ 2)) m) m)
        docId).getD 0 =
      (dictGet m docId).getD 0 + docLengthSq tokens docId := by
  induction tokens with
  | nil => intro m; simp [docLengthSq]
  | cons p t ih =>
    intro m
    simp only [List.foldl_cons]
    rw [ih, innerFold_getD]
    unfold docLengthSq
    simp only [List.map_cons, List.sum_cons]
    ring

theorem outerFold_isSome (tokens : List (String × Token)) (docId : String) :
    ∀ m : List (String × ℝ),
      (dictGet (tokens.foldl
        (fun m p => p.2.list.foldl
          (fun m2 q => dictAdd m2 q.1 ((q.2.tf * p.2.idf) ^ 2)) m) m)
        docId).isSome ↔
      (dictGet m docId).isSome ∨ ∃ p ∈ tokens, ∃ q ∈ p.2.list, q.1 = docId := by
  induction tokens with
  | nil => intro m; simp
  | cons p t ih =>
    intro m
    simp only [List.foldl_cons]
    rw [ih, innerFold_isSome]
    simp only [List.mem_cons]
    constructor
    · rintro ((hm | hq) | ht)
      · exact Or.inl hm
      · exact Or.inr ⟨p, Or.inl rfl, hq⟩
      · obtain ⟨p', hp', hq'⟩ := ht
        exact Or.inr ⟨p', Or.inr hp', hq'⟩
    · rintro (hm | ⟨p', (rfl | hp'), hq'⟩)
      · exact Or.inl (Or.inl hm)
      · exact Or.inl (Or.inr hq')
      · exact Or.inr ⟨p', hp', hq'⟩

/-- `IRData.__init__` stores, for every document that occurs in some
posting, exactly the claim's vector length
`max(1.0, sqrt(Σ (tf·idf)^2))` in `doc_lengths`. -/
theorem docLengths_lookup (pii : PositionalInvertedIndexOnMemory)
    (docs : List Document) (docId : String)
    (h : ∃ p ∈ pii.tokens, ∃ q ∈ p.2.list, q.1 = docId) :
    dictGet (IRData.init pii docs).doc_lengths docId =
      some (max 1 (Real.sqrt (docLengthSq pii.tokens docId))) := by
  show dictGet ((computeDocLengthsSq pii.tokens).map
    (fun p => (p.1, max 1 (Real.sqrt p.2)))) docId = _
  rw [dictGet_map_sqrt]
  have hsome : (dictGet (computeDocLengthsSq pii.tokens) docId).isSome := by
    unfold computeDocLengthsSq
    rw [outerFold_isSome]
    exact Or.inr h
  obtain ⟨w, hw⟩ := Option.isSome_iff_exists.mp hsome
  have hval : w = docLengthSq pii.tokens docId := by
    have hgd := outerFold_getD pii.tokens docId []
    unfold computeDocLengthsSq at hw
    rw [hw] at hgd
    simpa [dictGet] using hgd
  rw [hw, hval]
  rfl

/-! ## Cosine-score membership (towards claim C1) -/

theorem mem_dictAdd (m : List (String × ℝ)) (k : String) (v : ℝ)
    (p : String × ℝ) (hp : p ∈ dictAdd m k v) :
    (∃ p' ∈ m, p'.1 = p.1) ∨ p.1 = k := by
  unfold dictAdd at hp
  by_cases hany : (m.any (fun p => p.1 = k)) = true
  · rw [if_pos hany] at hp
    obtain ⟨p0, hp0, hpe⟩ := List.mem_map.mp hp
    by_cases h0 : p0.1 = k
    · rw [if_pos h0] at hpe
      exact Or.inl ⟨p0, hp0, by rw [← hpe]⟩
    · rw [if_neg h0] at hpe
      exact Or.inl ⟨p0, hp0, by rw [hpe]⟩
  · rw [if_neg hany] at hp
    rw [List.mem_append] at hp
    cases hp with
    | inl hp => exact Or.inl ⟨p, hp, rfl⟩
    | inr hp =>
      rw [List.mem_singleton] at hp
      subst hp
      exact Or.inr rfl

theorem cosineInner_mem (idfv wtq : ℝ) :
    ∀ (l : List (String × DocumentTokenData)) (m : List (String × ℝ)),
      ∀ p ∈ cosineInner idfv wtq l m,
        (∃ p' ∈ m, p'.1 = p.1) ∨ (∃ q ∈ l, q.1 = p.1) := by
  intro l
  induction l with
  | nil =>
    intro m p hp
    exact Or.inl ⟨p, hp, rfl⟩
  | cons dd rest ih =>
    intro m p hp
    simp only [cosineInner, INDEX_ELIMINATION] at hp
    have h := ih (dictAdd m dd.1 ((dd.2.tf * idfv) * wtq)) p hp
    cases h with
    | inl h =>
      obtain ⟨p', hp', he⟩ := h
      cases mem_dictAdd _ _ _ _ hp' with
      | inl h2 =>
        obtain ⟨p'', hp'', he2⟩ := h2
        exact Or.inl ⟨p'', hp'', by rw [he2, he]⟩
      | inr h2 =>
        exact Or.inr ⟨dd, List.mem_cons_self _ _, by rw [← he, ← h2]⟩
    | inr h =>
      obtain ⟨q, hq, he⟩ := h
      exact Or.inr ⟨q, List.mem_cons_of_mem _ hq, he⟩

/-- A key has a visible posting in the index. -/
def hasScopeKey (pii : PositionalInvertedIndexOnMemory) (key : String) : Prop :=
  ∃ t ∈ pii.tokens, ∃ q ∈ t.2.scope, q.1 = key

theorem cosine_fold_mem (pii : PositionalInvertedIndexOnMemory) :
    ∀ (l : List (String × Token)) (m ds : List (String × ℝ)),
      (∀ p ∈ m, hasScopeKey pii p.1) →
      List.foldlM (cosineStep pii) m l = .ok ds →
      ∀ p ∈ ds, hasScopeKey pii p.1 := by
  intro l
  induction l with
  | nil =>
    intro m ds hm h
    simp only [List.foldlM_nil] at h
    cases h
    exact hm
  | cons tq rest ih =>
    intro m ds hm h
    rw [List.foldlM_cons] at h
    cases hstep : cosineStep pii m tq with
    | error e =>
      rw [hstep] at h
      exact absurd h (by simp [Bind.bind, Except.bind])
    | ok m' =>
      rw [hstep] at h
      refine ih m' ds ?_ h
      intro p hp
      unfold cosineStep at hstep
      cases hget : pii.getItem tq.1 with
      | error e =>
        cases e with
        | keyError =>
          rw [hget] at hstep
          cases hstep
          exact hm p hp
        | indexError =>
          rw [hget] at hstep
          cases hstep
      | ok tokenData =>
        rw [hget] at hstep
        cases hstep
        have hmem := cosineInner_mem tokenData.idf
          ((tq.2.list.headD ("", dtdNew)).2.tf) tokenData.scope m p hp
        cases hmem with
        | inl h2 =>
          obtain ⟨p', hp', he⟩ := h2
          rw [← he]
          exact hm p' hp'
        | inr h2 =>
          obtain ⟨q, hq, he⟩ := h2
          exact ⟨(tq.1, tokenData), binary_search_tuple_ok_mem hget, q, hq, he⟩

/-- Every document with a cosine-score entry has a visible posting for some
query term. -/
theorem cosine_mem (pii qpii : PositionalInvertedIndexOnMemory)
    (ds : List (String × ℝ)) (hc : cosine_score pii qpii = .ok ds) :
    ∀ p ∈ ds, hasScopeKey pii p.1 :=
  cosine_fold_mem pii qpii.tokens [] ds (by intro p hp; cases hp) hc

/-- After champions generation of a collection whose tokens had no
champions lists yet, every token's search scope is contained in the full
postings of one of the original tokens. -/
theorem generate_scope_sub (ir : IRData) (r : Option ℕ)
    (hnc : ∀ p ∈ ir.pii.tokens, p.2.champions_list = none) :
    ∀ t ∈ (generate_champions_list ir r).pii.tokens,
      ∃ t0 ∈ ir.pii.tokens, ∀ q ∈ t.2.scope, q ∈ t0.2.list := by
  cases r with
  | none =>
    intro t ht
    refine ⟨t, ht, ?_⟩
    intro q hq
    rw [Token.scope, hnc t ht] at hq
    exact hq
  | some rv =>
    intro t ht
    unfold generate_champions_list at ht
    replace ht : t ∈ ir.pii.tokens.map (fun p =>
      let tfIdfFunc := fun (td : String × DocumentTokenData) =>
        p.2.idf * td.2.tf / ((dictGet ir.doc_lengths td.1).getD 1)
      let tfSorted :=
        (List.insertionSort (fun a b => tfIdfFunc b ≤ tfIdfFunc a) p.2.list).take rv
      (p.1, { p.2 with champions_list := some (sortByKey tfSorted) })) := ht
    obtain ⟨q0, hq0, hqe⟩ := List.mem_map.mp ht
    subst hqe
    refine ⟨q0, hq0, ?_⟩
    intro q hq
    rw [Token.scope] at hq
    simp only [Option.getD_some] at hq
    have hq1 := ((sortByKey_perm _).mem_iff).mp hq
    have hq2 := List.mem_of_mem_take hq1
    exact (List.perm_insertionSort _ _).mem_iff.mp hq2

/-- The final ranking score exactly as the claim words it: for a document
with cosine raw score `s`, `(s / document_vector_length) *
phrase_multiplier(default 1) + date_boost(only when enabled)`, where the
document vector length is `max(1.0, sqrt(Σ over terms whose full postings
contain the document of (tf·idf)^2))`. -/
def claimFinalScore (pii : PositionalInvertedIndexOnMemory) (ir : IRData)
    (pso : Option (List (String × ℝ))) (df : Bool) (p : String × ℝ) :
    Document × ℝ :=
  let doc := (dictGet ir.docs p.1).getD ⟨p.1, "", "", DATETIME_MIN⟩
  (doc,
   p.2 / max 1 (Real.sqrt (docLengthSq pii.tokens p.1)) *
     (match pso with
      | some ps => (dictGet ps p.1).getD 1
      | none => 1) +
   (if df then date_score doc.date ir.max_doc_date ir.min_doc_date else 0))

/-! ## Claim C1 -/

/-- **C1**: for every ready collection (built index, optional champions
generation) and every query, the result of `search` is the top-`k` (by
score) of the cosine-score entries, each document scored exactly as
`(cosine_raw_score / document_vector_length) * phrase_multiplier(default
1) + date_boost(only when date scoring is enabled)`, with the document
vector length given by the claim's formula
`max(1.0, sqrt(Σ (tf·idf)^2))` over the terms whose full postings contain
the document. -/
theorem c1_final_score (pii : PositionalInvertedIndexOnMemory)
    (docs : List Document) (r : Option ℕ) (ir : IRData)
    (hir : ir = generate_champions_list (IRData.init pii docs) r)
    (hnc : ∀ p ∈ pii.tokens, p.2.champions_list = none)
    (qpii : PositionalInvertedIndexOnMemory) (k : ℕ) (df pf : Bool)
    (res : List (Document × ℝ)) (ds : List (String × ℝ))
    (pso : Option (List (String × ℝ)))
    (hs : search ir qpii k df pf = .ok res)
    (hc : cosine_score ir.pii qpii = .ok ds)
    (hph : (if pf then (phrase_query ir.pii qpii (ds.map (·.1))).map some
            else .ok none) = .ok pso) :
    res = (List.insertionSort scoreGE
      (ds.map (claimFinalScore pii ir pso df))).take k := by
  unfold search at hs
  cases hss : searchScored ir qpii df pf with
  | error e => rw [hss] at hs; cases hs
  | ok scored =>
    rw [hss] at hs
    simp only [Except.ok.injEq] at hs
    subst hs
    unfold searchScored at hss
    rw [hc] at hss
    dsimp only at hss
    rw [hph] at hss
    simp only [Except.ok.injEq] at hss
    subst hss
    have hmap : ds.map (scoreEntry ir df pso) =
        ds.map (claimFinalScore pii ir pso df) := by
      apply List.map_congr_left
      intro p hp
      have hkey := cosine_mem ir.pii qpii ds hc p hp
      obtain ⟨t, ht, q, hq, hqk⟩ := hkey
      have hnc' : ∀ p ∈ (IRData.init pii docs).pii.tokens,
          p.2.champions_list = none := hnc
      obtain ⟨t0, ht0, hsub⟩ :=
        generate_scope_sub (IRData.init pii docs) r hnc'
          t (by rw [← hir]; exact ht)
      have hocc : ∃ p0 ∈ pii.tokens, ∃ q0 ∈ p0.2.list, q0.1 = p.1 :=
        ⟨t0, ht0, q, hsub q hq, hqk⟩
      have hdlpre : (generate_champions_list (IRData.init pii docs) r).doc_lengths
          = (IRData.init pii docs).doc_lengths := by
        cases r <;> rfl
      have hdl : dictGet ir.doc_lengths p.1 =
          some (max 1 (Real.sqrt (docLengthSq pii.tokens p.1))) := by
        rw [hir, hdlpre]
        exact docLengths_lookup pii docs p.1 hocc
      unfold scoreEntry claimFinalScore
      rw [hdl]
      cases pso with
      | none => cases df <;> simp
      | some ps => cases df <;> simp
    rw [hmap]

/-- **C1 witness**: the final-score characterization applied to the
concrete two-document collection (no champions lists, both flags on). -/
theorem c1_witness :
    [(c4doc1, (0:ℝ)), (c4doc2, 0)] =
      (List.insertionSort scoreGE
        ([(("d1" : String), (0:ℝ)), ("d2", 0)].map
          (claimFinalScore c4pii c4ir (some []) true))).take 10 := by
  have hnc : ∀ p ∈ c4pii.tokens, p.2.champions_list = none := by
    rw [c4pii_tokens]
    intro p hp
    rw [List.mem_singleton] at hp
    subst hp
    rfl
  have hph : (if true then
      (phrase_query c4ir.pii c4q
        (([(("d1" : String), (0:ℝ)), ("d2", 0)]).map (·.1))).map some
    else .ok none) = .ok (some []) := by
    show (phrase_query c4ir.pii c4q
      (([(("d1" : String), (0:ℝ)), ("d2", 0)]).map (·.1))).map some = _
    rw [show phrase_query c4ir.pii c4q
      (([(("d1" : String), (0:ℝ)), ("d2", 0)]).map (·.1)) = .ok [] from
      c4_phrase_eval]
    rfl
  exact c1_final_score c4pii c4docs none c4ir rfl hnc c4q 10 true true
    _ _ (some []) c4_search_eval c4_cosine_eval hph

/-! ## Binary-search correctness on sorted keys (towards claim C5) -/

/-- On strictly sorted keys the loop converges to the index of the key. -/
theorem bstLoop_finds {K : Type} [LinearOrder K] (keys : List K) (x : K)
    (hs : List.Sorted (· < ·) keys) (i : ℕ) (hi : i < keys.length)
    (hx : keys.get ⟨i, hi⟩ = x) :
    ∀ low high, low ≤ i → i ≤ high → high ≤ keys.length - 1 →
      bstLoop keys x low high = i := by
  have hpw := List.pairwise_iff_get.mp hs
  intro low high
  induction low, high using bstLoop.induct keys x with
  | case1 low high hlt mid hkey ih =>
    intro h1 h2 h3
    have hmid_eq : mid = (low + high) / 2 := rfl
    rw [bstLoop]
    simp only [if_pos hlt, if_pos hkey]
    refine ih ?_ h2 h3
    by_contra hcon
    push_neg at hcon
    have himid : i ≤ mid := by omega
    have hmidlt : mid < keys.length := by omega
    have hle : keys.get ⟨i, hi⟩ ≤ keys.get ⟨mid, hmidlt⟩ := by
      rcases Nat.lt_or_ge i mid with hl | hg
      · exact le_of_lt (hpw ⟨i, hi⟩ ⟨mid, hmidlt⟩ (Fin.mk_lt_mk.mpr hl))
      · have : i = mid := by omega
        subst this
        exact le_refl _
    rw [hx] at hle
    rw [List.getD_eq_get _ _ hmidlt] at hkey
    exact absurd hkey (not_lt.mpr hle)
  | case2 low high hlt mid hkey ih =>
    intro h1 h2 h3
    have hmid_eq : mid = (low + high) / 2 := rfl
    rw [bstLoop]
    simp only [if_pos hlt, if_neg hkey]
    have hmidhigh : mid < high := by omega
    refine ih h1 ?_ (by omega)
    by_contra hcon
    push_neg at hcon
    have hmidlt : mid < keys.length := by omega
    have hlt2 : keys.get ⟨mid, hmidlt⟩ < keys.get ⟨i, hi⟩ :=
      hpw ⟨mid, hmidlt⟩ ⟨i, hi⟩ (Fin.mk_lt_mk.mpr (by omega))
    rw [hx] at hlt2
    rw [List.getD_eq_get _ _ hmidlt] at hkey
    exact hkey hlt2
  | case3 low high hlt =>
    intro h1 h2 h3
    rw [bstLoop]
    simp only [if_neg hlt]
    omega

/-- With strictly sorted keys, `binary_search_tuple` finds any stored
entry. -/
theorem binary_search_found {K V : Type} [LinearOrder K] (a : List (K × V))
    (hs : List.Sorted (· < ·) (a.map (·.1))) (i : ℕ) (hi : i < a.length)
    (x : K) (v : V) (hx : a.get ⟨i, hi⟩ = (x, v)) :
    binary_search_tuple a x = .ok v := by
  unfold binary_search_tuple
  have hkl : (a.map (·.1)).length = a.length := List.length_map _ _
  have hget : (a.map (·.1)).get ⟨i, by omega⟩ = x := by
    rw [List.get_map, hx]
  have hloop := bstLoop_finds (a.map (·.1)) x hs i (by omega) hget
    0 (a.length - 1) (by omega) (by omega) (by omega)
  rw [hloop, List.get?_eq_get hi, hx]
  simp

/-! ## Claim-side and spec-side phrase definitions -/

/-- Totalized `pii[term][doc_id].positions` used by the declarative
descriptions: any exception becomes "no entry". -/
def lookupPositionsOpt (pii : PositionalInvertedIndexOnMemory)
    (term docId : String) : Option (List ℤ) :=
  (lookupPositions pii term docId).toOption

/-- Consecutive-match walk, pure version (identical walk to the code's
inner loop, with exceptions totalized). -/
def matchExtraClaim (pii : PositionalInvertedIndexOnMemory) (docId : String) :
    List (String × Token) → ℤ → ℕ
  | [], _ => 0
  | t :: rest, pos =>
    match lookupPositionsOpt pii t.1 docId with
    | none => 0
    | some sp =>
      if (pos + 1) ∈ sp then matchExtraClaim pii docId rest (pos + 1) + 1
      else 0

/-- Best unbroken run over the non-sentinel starting positions. -/
def bestRunClaim (pii : PositionalInvertedIndexOnMemory) (docId : String)
    (rest : List (String × Token)) (positions : List ℤ) : ℕ :=
  ((positions.filter (fun p => p ≠ -1)).map
    (fun p => 1 + matchExtraClaim pii docId rest p)).foldl max 0

/-- Modelled from the claim's words (not the code): select as starting term
the first query term, scanning left-to-right, that has a *real
(non-sentinel, not -1)* position entry for the document. -/
def findStartClaim (pii : PositionalInvertedIndexOnMemory)
    (qtokens : List (String × Token)) (docId : String) :
    Option (ℕ × List ℤ) :=
  (List.range qtokens.length).findSome? (fun i =>
    match lookupPositionsOpt pii (qtokens.getD i ("", tokenNew)).1 docId with
    | some sp => if sp.any (fun p => p ≠ -1) then some (i, sp) else none
    | none => none)

/-- The per-document phrase score as the claim words it (non-sentinel
start-term selection). -/
def phraseDocClaim (pii qpii : PositionalInvertedIndexOnMemory)
    (docId : String) : Option ℝ :=
  match findStartClaim pii qpii.tokens docId with
  | none => none
  | some tp =>
    let best := bestRunClaim pii docId (qpii.tokens.drop (tp.1 + 1)) tp.2
    if 1 < best then
      some (1 + PHRASE_QUERY_WEIGHT * ((best : ℝ) / (qpii.tokens.length : ℝ)))
    else none

/-- The start-term selection the code actually performs, declaratively:
the first of the first `L-1` query terms with *any* posting entry for the
document (sentinel-only entries included). -/
def findStartSpec (pii : PositionalInvertedIndexOnMemory)
    (qtokens : List (String × Token)) (docId : String) :
    Option (ℕ × List ℤ) :=
  (List.range (qtokens.length - 1)).findSome? (fun i =>
    (lookupPositionsOpt pii (qtokens.getD i ("", tokenNew)).1 docId).map
      (fun sp => (i, sp)))

/-- The per-document phrase score of the amended claim. -/
def phraseDocSpec (pii qpii : PositionalInvertedIndexOnMemory)
    (docId : String) : Option ℝ :=
  match findStartSpec pii qpii.tokens docId with
  | none => none
  | some tp =>
    let best := bestRunClaim pii docId (qpii.tokens.drop (tp.1 + 1)) tp.2
    if 1 < best then
      some (1 + PHRASE_QUERY_WEIGHT * ((best : ℝ) / (qpii.tokens.length : ℝ)))
    else none

/-- The well-formedness condition under which no lookup of a query can
raise `IndexError`: the vocabulary is nonempty and no token's search-scope
list is empty. -/
def GoodLookups (pii : PositionalInvertedIndexOnMemory) : Prop :=
  pii.tokens ≠ [] ∧ ∀ p ∈ pii.tokens, p.2.scope ≠ []

theorem lookupPositions_error (pii : PositionalInvertedIndexOnMemory)
    (hgl : GoodLookups pii) (t d : String) (e : LookupError)
    (h : lookupPositions pii t d = .error e) : e = .keyError := by
  unfold lookupPositions at h
  cases hg : pii.getItem t with
  | error e' =>
    rw [hg] at h
    cases h
    cases e with
    | keyError => rfl
    | indexError =>
      exact absurd hg (binary_search_tuple_ne_indexError pii.tokens t hgl.1)
  | ok tok =>
    rw [hg] at h
    dsimp only at h
    cases hg2 : tok.getItem d with
    | error e' =>
      rw [hg2] at h
      cases h
      cases e with
      | keyError => rfl
      | indexError =>
        have hmem : (t, tok) ∈ pii.tokens := binary_search_tuple_ok_mem hg
        exact absurd hg2
          (binary_search_tuple_ne_indexError tok.scope d (hgl.2 (t, tok) hmem))
    | ok dd => rw [hg2] at h; cases h

theorem findStart_spec (pii : PositionalInvertedIndexOnMemory)
    (qtokens : List (String × Token)) (docId : String)
    (hgl : GoodLookups pii) :
    ∀ tpos, findStart pii qtokens docId tpos =
      .ok ((List.range' tpos (qtokens.length - 1 - tpos)).findSome? (fun i =>
        (lookupPositionsOpt pii (qtokens.getD i ("", tokenNew)).1 docId).map
          (fun sp => (i, sp)))) := by
  intro tpos
  induction tpos using findStart.induct pii qtokens docId with
  | case1 x hlt heq ih =>
    rw [findStart]
    simp only [if_pos hlt, heq]
    rw [ih]
    rw [show qtokens.length - 1 - x = (qtokens.length - 1 - (x + 1)) + 1 from
      by omega]
    rw [List.range'_succ, List.findSome?_cons]
    rw [show lookupPositionsOpt pii (qtokens.getD x ("", tokenNew)).1 docId =
      none from by unfold lookupPositionsOpt; rw [heq]; rfl]
    rfl
  | case2 x hlt heq =>
    exact absurd (lookupPositions_error pii hgl _ _ _ heq) (by decide)
  | case3 x hlt positions heq =>
    rw [findStart]
    simp only [if_pos hlt, heq]
    rw [show qtokens.length - 1 - x = (qtokens.length - 1 - (x + 1)) + 1 from
      by omega]
    rw [List.range'_succ, List.findSome?_cons]
    rw [show lookupPositionsOpt pii (qtokens.getD x ("", tokenNew)).1 docId =
      some positions from by unfold lookupPositionsOpt; rw [heq]; rfl]
    rfl
  | case4 x hlt =>
    rw [findStart]
    simp only [if_neg hlt]
    rw [show qtokens.length - 1 - x = 0 from by omega]
    rfl

theorem matchExtra_spec (pii : PositionalInvertedIndexOnMemory)
    (docId : String) (hgl : GoodLookups pii) :
    ∀ (l : List (String × Token)) (pos : ℤ),
      matchExtra pii docId l pos = .ok (matchExtraClaim pii docId l pos) := by
  intro l
  induction l with
  | nil => intro pos; rfl
  | cons t rest ih =>
    intro pos
    cases hlp : lookupPositions pii t.1 docId with
    | error e =>
      have he := lookupPositions_error pii hgl _ _ _ hlp
      subst he
      simp [matchExtra, matchExtraClaim, lookupPositionsOpt, hlp,
        Except.toOption]
    | ok sp =>
      simp only [matchExtra, matchExtraClaim, lookupPositionsOpt, hlp,
        Except.toOption]
      by_cases hmem : (pos + 1) ∈ sp
      · rw [if_pos hmem, if_pos hmem, ih]
      · rw [if_neg hmem, if_neg hmem]

theorem bestRun_spec (pii : PositionalInvertedIndexOnMemory) (docId : String)
    (rest : List (String × Token)) (positions : List ℤ)
    (hgl : GoodLookups pii) :
    bestRun pii docId rest positions =
      .ok (bestRunClaim pii docId rest positions) := by
  unfold bestRun bestRunClaim
  suffices h : ∀ acc : ℕ,
      positions.foldlM (fun acc p =>
        if p = -1 then (Except.ok acc : Except LookupError ℕ)
        else
          match matchExtra pii docId rest p with
          | .error e => Except.error e
          | .ok extra => Except.ok (max acc (1 + extra))) acc =
      Except.ok (((positions.filter (fun p => p ≠ -1)).map
        (fun p => 1 + matchExtraClaim pii docId rest p)).foldl max acc) by
    exact h 0
  induction positions with
  | nil => intro acc; rfl
  | cons p t ih =>
    intro acc
    rw [List.foldlM_cons]
    by_cases hp : p = -1
    · rw [if_pos hp]
      rw [show List.filter (fun p => decide (p ≠ -1)) (p :: t) =
        List.filter (fun p => decide (p ≠ -1)) t from by
          simp [List.filter_cons, hp]]
      exact ih acc
    · rw [if_neg hp, matchExtra_spec pii docId hgl rest p]
      rw [show List.filter (fun p => decide (p ≠ -1)) (p :: t) =
        p :: List.filter (fun p => decide (p ≠ -1)) t from by
          simp [List.filter_cons, hp]]
      rw [List.map_cons, List.foldl_cons]
      exact ih (max acc (1 + matchExtraClaim pii docId rest p))

theorem phraseDoc_spec (pii qpii : PositionalInvertedIndexOnMemory)
    (docId : String) (hgl : GoodLookups pii) :
    phraseDoc pii qpii docId = .ok (phraseDocSpec pii qpii docId) := by
  have hfs : findStart pii qpii.tokens docId 0 =
      .ok (findStartSpec pii qpii.tokens docId) := by
    rw [findStart_spec pii qpii.tokens docId hgl 0]
    unfold findStartSpec
    rw [List.range_eq_range']
    norm_num
  unfold phraseDoc phraseDocSpec
  rw [hfs]
  cases hv : findStartSpec pii qpii.tokens docId with
  | none => rfl
  | some tp =>
    dsimp only
    rw [bestRun_spec pii docId (qpii.tokens.drop (tp.1 + 1)) tp.2 hgl]
    by_cases hb : 1 < bestRunClaim pii docId (qpii.tokens.drop (tp.1 + 1)) tp.2
    · simp [hb]
    · simp [hb]

/-! ## Claim C5 -/

/-- **C5 (amended)**: `phrase_query` maps each candidate document to the
phrase score computed from the *first of the first `L-1` query terms that
has any posting entry for the document* (sentinel-only entries included —
this is where the original claim is wrong): no entry when no such term
exists or when the best unbroken run over the non-sentinel starting
positions of that term has length at most 1, and
`1 + PHRASE_QUERY_WEIGHT * (best_run/L)` otherwise.  Stated for every
collection in which no lookup can raise `IndexError` (nonempty vocabulary,
no empty scope list). -/
theorem c5_amended (pii qpii : PositionalInvertedIndexOnMemory)
    (docIds : List String) (hgl : GoodLookups pii) :
    phrase_query pii qpii docIds =
      .ok (docIds.filterMap (fun d =>
        (phraseDocSpec pii qpii d).map (fun v => (d, v)))) := by
  unfold phrase_query
  suffices h : ∀ m : List (String × ℝ), List.foldlM (fun m d =>
      match phraseDoc pii qpii d with
      | .error e => (Except.error e : Except LookupError (List (String × ℝ)))
      | .ok (some v) => Except.ok (m ++ [(d, v)])
      | .ok none => Except.ok m) m docIds =
      Except.ok (m ++ docIds.filterMap (fun d =>
        (phraseDocSpec pii qpii d).map (fun v => (d, v)))) by
    simpa using h []
  induction docIds with
  | nil =>
    intro m
    simp only [List.foldlM_nil, List.filterMap_nil, List.append_nil]
    rfl
  | cons d t ih =>
    intro m
    rw [List.foldlM_cons, phraseDoc_spec pii qpii d hgl]
    cases hv : phraseDocSpec pii qpii d with
    | none =>
      rw [List.filterMap_cons]
      simp only [hv, Option.map_none']
      exact ih m
    | some v =>
      rw [List.filterMap_cons]
      simp only [hv, Option.map_some']
      have h2 := ih (m ++ [(d, v)])
      rw [List.append_assoc] at h2
      exact h2

/-- Sorting an already-ordered three-element list is the identity. -/
theorem sortByKey_triple {α : Type} (k1 k2 k3 : String) (v1 v2 v3 : α)
    (h12 : k1 ≤ k2) (h23 : k2 ≤ k3) :
    sortByKey [(k1, v1), (k2, v2), (k3, v3)] =
      [(k1, v1), (k2, v2), (k3, v3)] := by
  unfold sortByKey
  simp only [List.insertionSort, List.orderedInsert]
  rw [if_pos (show keyLE (k2, v2) (k3, v3) from h23)]
  simp only [List.orderedInsert]
  rw [if_pos (show keyLE (k1, v1) (k2, v2) from h12)]

/-! ### The C5 counterexample: a sentinel-only entry on the first term -/

/-- One document `"d"`: query term `"a"` occurs only as a title token
(sentinel position `-1`, weight 2), `"b"` and `"c"` occur in the content
at the consecutive positions 5 and 6. -/
def c5ops : List (String × String × ℤ × ℝ) :=
  [("a", "d", -1, 2), ("b", "d", 5, 1), ("c", "d", 6, 1)]

/-- The C5 counterexample index. -/
def c5pii : PositionalInvertedIndexOnMemory := (applyOps c5ops).finalize 1

/-- The query index for the three-term query `"a b c"`. -/
def c5q : PositionalInvertedIndexOnMemory := create_query_pii ["a", "b", "c"]

/-- The finalized tokens of the C5 counterexample index. -/
def c5ta : Token := (tokenNew.addPosition "d" (-1) 2).finalize 1

def c5tb : Token := (tokenNew.addPosition "d" 5 1).finalize 1

def c5tc : Token := (tokenNew.addPosition "d" 6 1).finalize 1

/-- The finalized tokens of the C5 query index. -/
def c5qa : Token := (tokenNew.addPosition "0" 0 1).finalize 1

def c5qb : Token := (tokenNew.addPosition "0" 1 1).finalize 1

def c5qc : Token := (tokenNew.addPosition "0" 2 1).finalize 1

theorem c5pii_tokens : c5pii.tokens = [("a", c5ta), ("b", c5tb), ("c", c5tc)] := by
  have hab : ("a" : String) ≤ "b" := by rw [String.le_iff_toList_le]; decide
  have hbc : ("b" : String) ≤ "c" := by rw [String.le_iff_toList_le]; decide
  show sortByKey [("a", c5ta), ("b", c5tb), ("c", c5tc)] = _
  exact sortByKey_triple _ _ _ _ _ _ hab hbc

theorem c5q_tokens : c5q.tokens = [("a", c5qa), ("b", c5qb), ("c", c5qc)] := by
  have hab : ("a" : String) ≤ "b" := by rw [String.le_iff_toList_le]; decide
  have hbc : ("b" : String) ≤ "c" := by rw [String.le_iff_toList_le]; decide
  show sortByKey [("a", c5qa), ("b", c5qb), ("c", c5qc)] = _
  exact sortByKey_triple _ _ _ _ _ _ hab hbc

theorem c5keys_sorted :
    List.Sorted (· < ·) ([("a", c5ta), ("b", c5tb), ("c", c5tc)].map (·.1)) := by
  have hab : ("a" : String) < "b" := by rw [String.lt_iff_toList_lt]; decide
  have hbc : ("b" : String) < "c" := by rw [String.lt_iff_toList_lt]; decide
  have hac : ("a" : String) < "c" := by rw [String.lt_iff_toList_lt]; decide
  show List.Sorted (· < ·) ["a", "b", "c"]
  simp only [List.sorted_cons, List.mem_cons, List.mem_singleton,
    List.not_mem_nil, List.sorted_nil]
  refine ⟨?_, ?_, fun b h => absurd h (by simp), trivial⟩
  · rintro b (rfl | rfl | h)
    · exact hab
    · exact hac
    · cases h
  · rintro b (rfl | h)
    · exact hbc
    · cases h

theorem c5lp_a : lookupPositions c5pii "a" "d" = .ok [-1] := by
  have hg : c5pii.getItem "a" = .ok c5ta := by
    show binary_search_tuple c5pii.tokens "a" = _
    rw [c5pii_tokens]
    exact binary_search_found _ c5keys_sorted 0 (by norm_num) "a" c5ta rfl
  unfold lookupPositions
  rw [hg]
  dsimp only
  rw [show c5ta.getItem "d" = .ok ((dtdNew.addPosition (-1) 2).updateTf) from by
    show binary_search_tuple c5ta.scope "d" = _
    rw [show c5ta.scope = [("d", (dtdNew.addPosition (-1) 2).updateTf)] from rfl,
      bst_singleton]
    simp]
  rfl

theorem c5lp_b : lookupPositions c5pii "b" "d" = .ok [5] := by
  have hg : c5pii.getItem "b" = .ok c5tb := by
    show binary_search_tuple c5pii.tokens "b" = _
    rw [c5pii_tokens]
    exact binary_search_found _ c5keys_sorted 1 (by norm_num) "b" c5tb rfl
  unfold lookupPositions
  rw [hg]
  dsimp only
  rw [show c5tb.getItem "d" = .ok ((dtdNew.addPosition 5 1).updateTf) from by
    show binary_search_tuple c5tb.scope "d" = _
    rw [show c5tb.scope = [("d", (dtdNew.addPosition 5 1).updateTf)] from rfl,
      bst_singleton]
    simp]
  rfl

theorem c5lp_c : lookupPositions c5pii "c" "d" = .ok [6] := by
  have hg : c5pii.getItem "c" = .ok c5tc := by
    show binary_search_tuple c5pii.tokens "c" = _
    rw [c5pii_tokens]
    exact binary_search_found _ c5keys_sorted 2 (by norm_num) "c" c5tc rfl
  unfold lookupPositions
  rw [hg]
  dsimp only
  rw [show c5tc.getItem "d" = .ok ((dtdNew.addPosition 6 1).updateTf) from by
    show binary_search_tuple c5tc.scope "d" = _
    rw [show c5tc.scope = [("d", (dtdNew.addPosition 6 1).updateTf)] from rfl,
      bst_singleton]
    simp]
  rfl

/-- The code selects term `"a"` (it has an entry, sentinel-only), finds no
non-sentinel start position, and gives document `"d"` no phrase entry. -/
theorem c5_code_eval : phrase_query c5pii c5q ["d"] = .ok [] := by
  have hfs : findStart c5pii c5q.tokens "d" 0 = .ok (some (0, [-1])) := by
    rw [c5q_tokens, findStart]
    rw [if_pos (show 0 + 1 <
      [("a", c5qa), ("b", c5qb), ("c", c5qc)].length by norm_num)]
    rw [show (([("a", c5qa), ("b", c5qb), ("c", c5qc)].getD 0
      ("", tokenNew)).1) = "a" from rfl]
    rw [c5lp_a]
  have hbr : bestRun c5pii "d" (c5q.tokens.drop (0 + 1)) [-1] = .ok 0 := by
    unfold bestRun
    simp only [List.foldlM_cons, List.foldlM_nil]
    simp
  unfold phrase_query
  simp only [List.foldlM_cons, List.foldlM_nil]
  unfold phraseDoc
  rw [hfs]
  dsimp only
  rw [hbr]
  simp

theorem c5_opt_a : lookupPositionsOpt c5pii "a" "d" = some [-1] := by
  unfold lookupPositionsOpt
  rw [c5lp_a]
  rfl

theorem c5_opt_b : lookupPositionsOpt c5pii "b" "d" = some [5] := by
  unfold lookupPositionsOpt
  rw [c5lp_b]
  rfl

theorem c5_opt_c : lookupPositionsOpt c5pii "c" "d" = some [6] := by
  unfold lookupPositionsOpt
  rw [c5lp_c]
  rfl

/-- Under the claim's selection rule the starting term is `"b"` (the first
term with a *non-sentinel* entry), the run `"b" "c"` at positions 5,6 has
length 2, and the document receives the multiplier
`1 + PHRASE_QUERY_WEIGHT * (2/3)`. -/
theorem c5_claim_eval :
    phraseDocClaim c5pii c5q "d" =
      some (1 + PHRASE_QUERY_WEIGHT * (((2:ℕ) : ℝ) / ((3:ℕ) : ℝ))) := by
  have hme : matchExtraClaim c5pii "d" [("c", c5qc)] 5 = 1 := by
    unfold matchExtraClaim
    rw [c5_opt_c]
    dsimp only
    rw [if_pos (by decide : (5 : ℤ) + 1 ∈ [(6 : ℤ)])]
    rfl
  have hbrc : bestRunClaim c5pii "d" [("c", c5qc)] [5] = 2 := by
    unfold bestRunClaim
    rw [show List.filter (fun p => decide (p ≠ -1)) [(5:ℤ)] = [(5:ℤ)] from by
      decide]
    rw [List.map_cons, List.map_nil, hme]
    decide
  unfold phraseDocClaim findStartClaim
  rw [c5q_tokens]
  rw [show List.range ([("a", c5qa), ("b", c5qb), ("c", c5qc)].length) =
    [0, 1, 2] from rfl]
  simp [List.findSome?_cons, c5_opt_a, c5_opt_b, c5_opt_c, hbrc]

/-- **C5 counterexample**: on the index where the first query term has a
sentinel-only posting entry for the candidate document, the code gives the
document *no* phrase entry (effective multiplier 1), while the claim's
selection rule ("first term with a real, non-sentinel entry") assigns it
the multiplier `1 + PHRASE_QUERY_WEIGHT * (2/3) = 7/3 ≠ 1`. -/
theorem c5_counterexample :
    phrase_query c5pii c5q ["d"] = .ok [] ∧
    phraseDocClaim c5pii c5q "d" =
      some (1 + PHRASE_QUERY_WEIGHT * (((2:ℕ) : ℝ) / ((3:ℕ) : ℝ))) ∧
    (1 : ℝ) + PHRASE_QUERY_WEIGHT * (((2:ℕ) : ℝ) / ((3:ℕ) : ℝ)) ≠ 1 := by
  refine ⟨c5_code_eval, c5_claim_eval, ?_⟩
  unfold PHRASE_QUERY_WEIGHT
  norm_num

/-- **C5 witness**: the amended phrase-query characterization applied to
the concrete counterexample index (which satisfies the well-formedness
hypothesis). -/
theorem c5_witness :
    GoodLookups c5pii ∧
    phrase_query c5pii c5q ["d"] =
      .ok (["d"].filterMap (fun d =>
        (phraseDocSpec c5pii c5q d).map (fun v => (d, v)))) := by
  have hgl : GoodLookups c5pii := by
    constructor
    · rw [c5pii_tokens]
      simp
    · intro p hp
      rw [c5pii_tokens] at hp
      simp only [List.mem_cons, List.mem_singleton, List.not_mem_nil,
        or_false] at hp
      rcases hp with rfl | rfl | rfl
      · rw [show c5ta.scope =
          [("d", (dtdNew.addPosition (-1) 2).updateTf)] from rfl]
        simp
      · rw [show c5tb.scope =
          [("d", (dtdNew.addPosition 5 1).updateTf)] from rfl]
        simp
      · rw [show c5tc.scope =
          [("d", (dtdNew.addPosition 6 1).updateTf)] from rfl]
        simp
  exact ⟨hgl, c5_amended c5pii c5q ["d"] hgl⟩

/-- **C4 witness**: the amended ranking invariant applied to the concrete
two-document collection. -/
theorem c4_witness :
    List.Sorted (fun a b : Document × ℝ => b.2 ≤ a.2)
      [(c4doc1, (0:ℝ)), (c4doc2, 0)] ∧
    ([(c4doc1, (0:ℝ)), (c4doc2, 0)]).length ≤ 10 ∧
    ([(c4doc1, (0:ℝ)), (c4doc2, 0)]).length ≤
      ([(("d1" : String), (0:ℝ)), ("d2", 0)]).length :=
  c4_amended c4ir c4q 10 true true _ _ c4_search_eval c4_cosine_eval

end

end IRPII
